import Mathlib

/-!
Verification of the zix content-addressed filesystem sink/accessor and the
libutil JSON glue code.

The tree-builder ("sink"), accessor, and singleton-directory unwrapper are
exercised by the repository's test suite but their implementation is not part
of the visible sources; those components are modelled from the specification
(each such definition says so in its doc comment).  The JSON object model is
translated from src/src/libutil/libutil.zig and src/src/libutil/json.hh.
-/

namespace Zix

/-! ### Byte-wise ordering on names

Tree entries are ordered by a total order over names.  We model the order as
byte-wise (scalar-value-wise) lexicographic comparison on the characters of
the name. -/

def charsLe : List Char → List Char → Bool
  | [], _ => true
  | _ :: _, [] => false
  | a :: as, b :: bs =>
    if a.toNat < b.toNat then true
    else if b.toNat < a.toNat then false
    else charsLe as bs

def strLe (a b : String) : Bool :=
  charsLe a.data b.data

theorem charsLe_total : ∀ as bs, charsLe as bs = true ∨ charsLe bs as = true
  | [], _ => Or.inl rfl
  | _ :: _, [] => Or.inr rfl
  | a :: as, b :: bs => by
    simp only [charsLe]
    rcases Nat.lt_trichotomy a.toNat b.toNat with h | h | h
    · left
      simp [h]
    · have hn : ¬ a.toNat < b.toNat := by omega
      have hn2 : ¬ b.toNat < a.toNat := by omega
      simpa [hn, hn2] using charsLe_total as bs
    · right
      simp [h]

theorem charsLe_trans :
    ∀ as bs cs, charsLe as bs = true → charsLe bs cs = true → charsLe as cs = true
  | [], _, _, _, _ => rfl
  | _ :: _, [], _, h1, _ => by simp [charsLe] at h1
  | _ :: _, _ :: _, [], _, h2 => by simp [charsLe] at h2
  | a :: as, b :: bs, c :: cs, h1, h2 => by
    simp only [charsLe] at h1 h2 ⊢
    by_cases hab : a.toNat < b.toNat
    · by_cases hbc : b.toNat < c.toNat
      · simp [show a.toNat < c.toNat by omega]
      · by_cases hcb : c.toNat < b.toNat
        · simp [hbc, hcb] at h2
        · simp [show a.toNat < c.toNat by omega]
    · by_cases hba : b.toNat < a.toNat
      · simp [hab, hba] at h1
      · by_cases hbc : b.toNat < c.toNat
        · simp [show a.toNat < c.toNat by omega]
        · by_cases hcb : c.toNat < b.toNat
          · simp [hbc, hcb] at h2
          · have hac : ¬ a.toNat < c.toNat := by omega
            have hca : ¬ c.toNat < a.toNat := by omega
            simp only [if_neg hab, if_neg hba] at h1
            simp only [if_neg hbc, if_neg hcb] at h2
            simp only [if_neg hac, if_neg hca]
            exact charsLe_trans as bs cs h1 h2

theorem charsLe_antisymm :
    ∀ as bs, charsLe as bs = true → charsLe bs as = true → as = bs
  | [], [], _, _ => rfl
  | [], _ :: _, _, h2 => by simp [charsLe] at h2
  | _ :: _, [], h1, _ => by simp [charsLe] at h1
  | a :: as, b :: bs, h1, h2 => by
    simp only [charsLe] at h1 h2
    by_cases hab : a.toNat < b.toNat
    · have hba : ¬ b.toNat < a.toNat := by omega
      simp [hab, hba] at h2
    · by_cases hba : b.toNat < a.toNat
      · simp [hab, hba] at h1
      · have hc : a = b := by
          have hn : a.toNat = b.toNat := by omega
          exact Char.eq_of_val_eq (UInt32.toNat.inj hn)
        simp only [if_neg hab, if_neg hba] at h1 h2
        rw [hc, charsLe_antisymm as bs h1 h2]

theorem strLe_total (a b : String) : strLe a b = true ∨ strLe b a = true :=
  charsLe_total a.data b.data

theorem strLe_trans {a b c : String} (h1 : strLe a b = true) (h2 : strLe b c = true) :
    strLe a c = true :=
  charsLe_trans a.data b.data c.data h1 h2

theorem strLe_antisymm {a b : String} (h1 : strLe a b = true) (h2 : strLe b a = true) :
    a = b := by
  cases a with
  | mk da =>
    cases b with
    | mk db =>
      have hd : da = db := charsLe_antisymm da db h1 h2
      rw [hd]

/-! ### Generic key-based insertion sort

Used to model the deterministic ordering of tree entries by name. -/

def keyLe {α : Type} (key : α → String) (a b : α) : Prop :=
  strLe (key a) (key b) = true

def insortBy {α : Type} (key : α → String) (x : α) : List α → List α
  | [] => [x]
  | y :: ys => if strLe (key x) (key y) then x :: y :: ys else y :: insortBy key x ys

def sortBy {α : Type} (key : α → String) : List α → List α
  | [] => []
  | x :: xs => insortBy key x (sortBy key xs)

theorem insortBy_perm {α : Type} (key : α → String) (x : α) :
    ∀ l : List α, (insortBy key x l).Perm (x :: l)
  | [] => List.Perm.refl _
  | y :: ys => by
    simp only [insortBy]
    split
    · exact List.Perm.refl _
    · exact ((insortBy_perm key x ys).cons y).trans (List.Perm.swap x y ys)

theorem sortBy_perm {α : Type} (key : α → String) :
    ∀ l : List α, (sortBy key l).Perm l
  | [] => List.Perm.refl _
  | x :: xs => (insortBy_perm key x (sortBy key xs)).trans ((sortBy_perm key xs).cons x)

theorem insortBy_pairwise {α : Type} (key : α → String) (x : α) :
    ∀ l : List α, l.Pairwise (keyLe key) → (insortBy key x l).Pairwise (keyLe key)
  | [], _ => by simp [insortBy, keyLe]
  | y :: ys, h => by
    rcases List.pairwise_cons.mp h with ⟨hy, hys⟩
    simp only [insortBy]
    split
    next hxy =>
      refine List.pairwise_cons.mpr ⟨?_, h⟩
      intro z hz
      rcases List.mem_cons.mp hz with rfl | hz
      · exact hxy
      · exact strLe_trans hxy (hy z hz)
    next hxy =>
      have hyx : strLe (key y) (key x) = true := (strLe_total (key x) (key y)).resolve_left hxy
      refine List.pairwise_cons.mpr ⟨?_, insortBy_pairwise key x ys hys⟩
      intro z hz
      rcases List.mem_cons.mp ((insortBy_perm key x ys).mem_iff.mp hz) with rfl | hz
      · exact hyx
      · exact hy z hz

theorem sortBy_pairwise {α : Type} (key : α → String) :
    ∀ l : List α, (sortBy key l).Pairwise (keyLe key)
  | [] => List.Pairwise.nil
  | x :: xs => insortBy_pairwise key x (sortBy key xs) (sortBy_pairwise key xs)

theorem sorted_nodup_eq_of_perm {α : Type} (key : α → String) (l₁ l₂ : List α)
    (hp : l₁.Perm l₂) (h₁ : l₁.Pairwise (keyLe key)) (h₂ : l₂.Pairwise (keyLe key))
    (hnd : (l₁.map key).Nodup) : l₁ = l₂ := by
  haveI : IsAntisymm α (fun a b => keyLe key a b ∧ key a ≠ key b) :=
    ⟨fun a b ha hb => absurd (strLe_antisymm ha.1 hb.1) ha.2⟩
  have hnd₂ : (l₂.map key).Nodup := ((hp.map key).nodup_iff).mp hnd
  have p₁ : l₁.Pairwise (fun a b => key a ≠ key b) := List.pairwise_map.mp hnd
  have p₂ : l₂.Pairwise (fun a b => key a ≠ key b) := List.pairwise_map.mp hnd₂
  exact List.eq_of_perm_of_sorted hp (h₁.and p₁) (h₂.and p₂)

theorem sortBy_map_key_perm {α : Type} (key : α → String) (l : List α) :
    ((sortBy key l).map key).Perm (l.map key) :=
  (sortBy_perm key l).map key

theorem sortBy_congr_of_perm {α : Type} (key : α → String) (l₁ l₂ : List α)
    (hp : l₁.Perm l₂) (hnd : (l₁.map key).Nodup) : sortBy key l₁ = sortBy key l₂ := by
  refine sorted_nodup_eq_of_perm key _ _ ?_ (sortBy_pairwise key l₁) (sortBy_pairwise key l₂) ?_
  · exact (sortBy_perm key l₁).trans (hp.trans (sortBy_perm key l₂).symm)
  · exact ((sortBy_map_key_perm key l₁).nodup_iff).mpr hnd

/-! ### Git object model

Modelled from the spec: the object store holds blobs (opaque byte sequences)
and trees (ordered lists of named, typed entries).  Content ids are a
deterministic content hash; we model the hash as injective by letting an
object stand for its own id, so that equal content yields equal id and
distinct content yields distinct ids. -/

inductive Mode where
  | directory
  | regular
  | executableRegular
  | symlink
deriving DecidableEq

inductive GitObject where
  | blob (contents : String)
  | tree (entries : List (String × Mode × GitObject))

abbrev TreeEntry := String × Mode × GitObject

def entryName (e : TreeEntry) : String := e.1

/-! ### Staged filesystem nodes (tree builder state)

Modelled from the spec: the sink stages a directory hierarchy in memory as a
tree of tagged nodes; a directory maps child names to child nodes, a regular
file carries its content and executable flag, a symlink carries its target
string. -/

inductive FSNode where
  | regular (contents : String) (executable : Bool)
  | symlink (target : String)
  | directory (children : List (String × FSNode))

abbrev Stage := List (String × FSNode)

def modeOf : FSNode → Mode
  | .regular _ false => .regular
  | .regular _ true => .executableRegular
  | .symlink _ => .symlink
  | .directory _ => .directory

def lookupChild : Stage → String → Option FSNode
  | [], _ => none
  | (m, w) :: rest, n => if m = n then some w else lookupChild rest n

def setChild : Stage → String → FSNode → Stage
  | [], n, v => [(n, v)]
  | (m, w) :: rest, n, v => if m = n then (n, v) :: rest else (m, w) :: setChild rest n v

/-- Modelled from the spec: resolve a root-relative path against the staged
hierarchy; the empty path denotes the staging root directory. -/
def resolveStage : Stage → List String → Option FSNode
  | cs, [] => some (.directory cs)
  | cs, n :: rest =>
    match lookupChild cs n with
    | some (.directory sub) => resolveStage sub rest
    | some v => if rest.isEmpty then some v else none
    | none => none

/-- True when the staged hierarchy has a non-directory entry at the given
root-relative path. -/
def isLeafAt (st : Stage) (q : List String) : Bool :=
  match resolveStage st q with
  | some (.directory _) => false
  | some _ => true
  | none => false

/-- q is an ancestor-or-self of p (q is an initial segment of p). -/
def ancestorOf (q p : List String) : Prop := ∃ r, q ++ r = p

inductive NewEntry where
  | dir
  | leaf (node : FSNode)

def newNode : NewEntry → FSNode
  | .dir => .directory []
  | .leaf v => v

/-- Modelled from the spec: insert an entry at a non-empty root-relative path,
auto-creating missing ancestor directories.  Returns none on a path conflict:
a non-directory node at an ancestor, a non-directory at the final path for
directory creation, or any existing node at the final path for leaf
creation. -/
def insertAt : Stage → List String → NewEntry → Option Stage
  | _, [], _ => none
  | cs, [n], e =>
    match lookupChild cs n, e with
    | none, _ => some (setChild cs n (newNode e))
    | some (.directory _), .dir => some cs
    | some _, _ => none
  | cs, n :: m :: rest, e =>
    match lookupChild cs n with
    | none => (insertAt [] (m :: rest) e).map (fun sub => setChild cs n (.directory sub))
    | some (.directory sub) =>
      (insertAt sub (m :: rest) e).map (fun sub2 => setChild cs n (.directory sub2))
    | some _ => none

inductive SinkError where
  | pathConflict (path : List String)
  | hardlinkTargetNotFound (link target : List String)
deriving DecidableEq

/-- Root-relative textual form of a path. -/
def renderPath (p : List String) : String := "/" ++ String.intercalate "/" p

/-- Modelled from the spec: error messages report concrete offending paths; the
hardlink-target-not-found message carries both the unresolved target path and
the requesting link path in root-relative form. -/
def sinkErrorMessage : SinkError → String
  | .pathConflict p => "path conflict at " ++ renderPath p
  | .hardlinkTargetNotFound link target =>
    "cannot find hard link target " ++ renderPath target ++ " for path " ++ renderPath link

/-- Modelled from the spec: createDirectory inserts an empty directory,
auto-creating ancestors; re-creating an existing directory is a no-op. -/
def createDirectory (st : Stage) (p : List String) : Except SinkError Stage :=
  if p.isEmpty then .ok st
  else
    match insertAt st p .dir with
    | some st2 => .ok st2
    | none => .error (.pathConflict p)

/-- Modelled from the spec: createRegularFile inserts a regular file whose
content has been accumulated by the file content sub-sink, together with its
executable flag. -/
def createRegularFile (st : Stage) (p : List String) (contents : String) (executable : Bool) :
    Except SinkError Stage :=
  match insertAt st p (.leaf (.regular contents executable)) with
  | some st2 => .ok st2
  | none => .error (.pathConflict p)

/-- Modelled from the spec: createSymlink inserts a symlink entry storing the
literal target string. -/
def createSymlink (st : Stage) (p : List String) (target : String) : Except SinkError Stage :=
  match insertAt st p (.leaf (.symlink target)) with
  | some st2 => .ok st2
  | none => .error (.pathConflict p)

/-- Modelled from the spec: createHardlink resolves the target against the
staging root; if it does not resolve to an already-staged regular file the
operation fails with hardlinkTargetNotFound, otherwise a regular file sharing
the same content and executable flag is inserted at the link path. -/
def createHardlink (st : Stage) (p t : List String) : Except SinkError Stage :=
  match resolveStage st t with
  | some (.regular c e) => createRegularFile st p c e
  | _ => .error (.hardlinkTargetNotFound p t)

/-! ### Committing the stage (flush) -/

mutual

/-- Modelled from the spec: flush commits the staged tree bottom-up; regular
file and symlink contents become blobs, directories become trees whose
entries are ordered by the total order over names. -/
def flushNode : FSNode → GitObject
  | .regular c _ => .blob c
  | .symlink t => .blob t
  | .directory cs => .tree (sortBy entryName (flushChildren cs))

def flushChildren : Stage → List TreeEntry
  | [] => []
  | (n, v) :: rest => (n, modeOf v, flushNode v) :: flushChildren rest

end

/-- Modelled from the spec: committing the whole staged root directory. -/
def flushStage (st : Stage) : GitObject := .tree (sortBy entryName (flushChildren st))

/-! ### Well-formedness of the stage: child names unique within a directory -/

mutual

def wfNode : FSNode → Bool
  | .directory cs => wfChildren cs
  | _ => true

def wfChildren : Stage → Bool
  | [] => true
  | (n, v) :: rest => (lookupChild rest n).isNone && wfNode v && wfChildren rest

end

/-! ### Accessor

Modelled from the spec: a read-only query surface bound to one committed tree,
resolving paths by walking tree entries from the bound root component by
component. -/

inductive AccessError where
  | notFound
  | notADirectory
  | notAFile
  | notASymlink
deriving DecidableEq

def lookupEntry : List TreeEntry → String → Option (Mode × GitObject)
  | [], _ => none
  | (m, rest2) :: rest, n => if m = n then some rest2 else lookupEntry rest n

def resolveObj : Mode × GitObject → List String → Except AccessError (Mode × GitObject)
  | x, [] => .ok x
  | (.directory, .tree es), n :: rest =>
    match lookupEntry es n with
    | some y => resolveObj y rest
    | none => .error .notFound
  | _, _ :: _ => .error .notADirectory

/-- Modelled from the spec: readFile returns the full blob content of a
regular file. -/
def readFile (root : GitObject) (p : List String) : Except AccessError String :=
  match resolveObj (.directory, root) p with
  | .ok (.regular, .blob c) => .ok c
  | .ok (.executableRegular, .blob c) => .ok c
  | .ok _ => .error .notAFile
  | .error e => .error e

/-- Modelled from the spec: readLink returns the stored target string of a
symlink. -/
def readLink (root : GitObject) (p : List String) : Except AccessError String :=
  match resolveObj (.directory, root) p with
  | .ok (.symlink, .blob t) => .ok t
  | .ok _ => .error .notASymlink
  | .error e => .error e

/-- Modelled from the spec: readDirectory lists (name, kind) pairs in the
canonical stored order. -/
def readDirectory (root : GitObject) (p : List String) :
    Except AccessError (List (String × Mode)) :=
  match resolveObj (.directory, root) p with
  | .ok (.directory, .tree es) => .ok (es.map (fun e => (e.1, e.2.1)))
  | .ok _ => .error .notADirectory
  | .error e => .error e

/-- Modelled from the spec: if the root tree contains exactly one entry and
that entry is a directory, return that entry's id; otherwise return the root
unchanged (the deterministic implementation-defined case). -/
def dereferenceSingletonDirectory : GitObject → GitObject
  | .tree [(_, .directory, sub)] => sub
  | root => root

/-! ### Basic lemmas about children maps -/

theorem lookupChild_setChild_self (n : String) (v : FSNode) :
    ∀ cs : Stage, lookupChild (setChild cs n v) n = some v
  | [] => by simp [setChild, lookupChild]
  | (m, w) :: rest => by
    by_cases h : m = n
    · simp [setChild, lookupChild, h]
    · simp [setChild, lookupChild, h, lookupChild_setChild_self n v rest]

theorem lookupChild_setChild_ne (n k : String) (v : FSNode) (h : k ≠ n) :
    ∀ cs : Stage, lookupChild (setChild cs n v) k = lookupChild cs k
  | [] => by
    have hnk : ¬ n = k := fun hh => h hh.symm
    simp [setChild, lookupChild, hnk]
  | (m, w) :: rest => by
    by_cases hm : m = n
    · have hnk : ¬ n = k := fun hh => h hh.symm
      have hmk : ¬ m = k := by rw [hm]; exact hnk
      simp [setChild, if_pos hm, lookupChild, hnk, hmk]
    · simp only [setChild, if_neg hm, lookupChild]
      by_cases hk : m = k
      · simp [hk]
      · simp [hk, lookupChild_setChild_ne n k v h rest]

theorem setChild_self (n : String) (v : FSNode) :
    ∀ cs : Stage, lookupChild cs n = some v → setChild cs n v = cs
  | [], h => by simp [lookupChild] at h
  | (m, w) :: rest, h => by
    by_cases hm : m = n
    · rw [lookupChild, if_pos hm] at h
      injection h with h
      simp [setChild, if_pos hm, h, hm]
    · rw [lookupChild, if_neg hm] at h
      simp [setChild, hm, setChild_self n v rest h]

theorem lookupChild_mem : ∀ (cs : Stage) (n : String) (v : FSNode),
    lookupChild cs n = some v → (n, v) ∈ cs
  | [], n, v, h => by simp [lookupChild] at h
  | (m, w) :: rest, n, v, h => by
    by_cases hm : m = n
    · rw [lookupChild, if_pos hm] at h
      injection h with h
      simp [hm, h]
    · rw [lookupChild, if_neg hm] at h
      exact List.mem_cons_of_mem _ (lookupChild_mem rest n v h)

theorem lookupChild_ne_none_of_mem_keys :
    ∀ (cs : Stage) (n : String), n ∈ cs.map Prod.fst → lookupChild cs n ≠ none
  | [], n, h => by simp at h
  | (m, w) :: rest, n, h => by
    by_cases hm : m = n
    · simp [lookupChild, hm]
    · simp only [List.map_cons, List.mem_cons] at h
      rcases h with h | h
      · exact absurd h.symm hm
      · rw [lookupChild, if_neg hm]
        exact lookupChild_ne_none_of_mem_keys rest n h

/-! ### Well-formedness lemmas -/

theorem wfChildren_cons {n : String} {v : FSNode} {rest : Stage}
    (h : wfChildren ((n, v) :: rest) = true) :
    (lookupChild rest n).isNone = true ∧ wfNode v = true ∧ wfChildren rest = true := by
  simp only [wfChildren, Bool.and_eq_true] at h
  exact ⟨h.1.1, h.1.2, h.2⟩

theorem wf_lookup : ∀ (cs : Stage) (n : String) (v : FSNode),
    wfChildren cs = true → lookupChild cs n = some v → wfNode v = true
  | [], n, v, _, h => by simp [lookupChild] at h
  | (m, w) :: rest, n, v, hwf, h => by
    rcases wfChildren_cons hwf with ⟨_, hw, hrest⟩
    by_cases hm : m = n
    · rw [lookupChild, if_pos hm] at h
      injection h with h
      rw [← h]
      exact hw
    · rw [lookupChild, if_neg hm] at h
      exact wf_lookup rest n v hrest h

theorem wfChildren_keys_nodup : ∀ cs : Stage, wfChildren cs = true → (cs.map Prod.fst).Nodup
  | [], _ => List.nodup_nil
  | (n, v) :: rest, h => by
    rcases wfChildren_cons h with ⟨hnone, _, hrest⟩
    refine List.nodup_cons.mpr ⟨?_, wfChildren_keys_nodup rest hrest⟩
    intro hmem
    exact lookupChild_ne_none_of_mem_keys rest n hmem (Option.isNone_iff_eq_none.mp hnone)

theorem wf_setChild (n : String) (v : FSNode) :
    ∀ cs : Stage, wfChildren cs = true → wfNode v = true → wfChildren (setChild cs n v) = true
  | [], _, hv => by simp [setChild, wfChildren, lookupChild, Option.isNone, hv]
  | (m, w) :: rest, h, hv => by
    rcases wfChildren_cons h with ⟨hnone, hw, hrest⟩
    by_cases hm : m = n
    · simp only [setChild, if_pos hm, wfChildren, Bool.and_eq_true]
      rw [← hm]
      exact ⟨⟨hnone, hv⟩, hrest⟩
    · simp only [setChild, if_neg hm, wfChildren, Bool.and_eq_true]
      refine ⟨⟨?_, hw⟩, wf_setChild n v rest hrest hv⟩
      rw [lookupChild_setChild_ne n m v hm rest]
      exact hnone

/-! ### Flushing commutes with lookup -/

theorem flushChildren_eq_map : ∀ cs : Stage,
    flushChildren cs = cs.map (fun c => (c.1, modeOf c.2, flushNode c.2))
  | [] => rfl
  | (n, v) :: rest => by simp [flushChildren, flushChildren_eq_map rest]

theorem flushChildren_keys : ∀ cs : Stage,
    (flushChildren cs).map entryName = cs.map Prod.fst
  | [] => rfl
  | (n, v) :: rest => by simp [flushChildren, entryName, flushChildren_keys rest]

theorem lookupEntry_flushChildren : ∀ (cs : Stage) (n : String),
    lookupEntry (flushChildren cs) n = (lookupChild cs n).map (fun v => (modeOf v, flushNode v))
  | [], _ => rfl
  | (m, v) :: rest, n => by
    by_cases hm : m = n
    · simp [flushChildren, lookupEntry, lookupChild, hm]
    · simp [flushChildren, lookupEntry, lookupChild, hm, lookupEntry_flushChildren rest n]

theorem lookupEntry_mem : ∀ (es : List TreeEntry) (n : String) (y : Mode × GitObject),
    lookupEntry es n = some y → (n, y) ∈ es
  | [], n, y, h => by simp [lookupEntry] at h
  | (m, z) :: rest, n, y, h => by
    by_cases hm : m = n
    · rw [lookupEntry, if_pos hm] at h
      injection h with h
      simp [hm, h]
    · rw [lookupEntry, if_neg hm] at h
      exact List.mem_cons_of_mem _ (lookupEntry_mem rest n y h)

theorem lookupEntry_eq_none_iff : ∀ (es : List TreeEntry) (n : String),
    lookupEntry es n = none ↔ n ∉ es.map entryName
  | [], n => by simp [lookupEntry]
  | (m, z) :: rest, n => by
    by_cases hm : m = n
    · simp [lookupEntry, if_pos hm, entryName, hm]
    · rw [lookupEntry, if_neg hm]
      simp only [List.map_cons, List.mem_cons, entryName]
      rw [lookupEntry_eq_none_iff rest n]
      constructor
      · intro h hc
        rcases hc with hc | hc
        · exact hm hc.symm
        · exact h hc
      · intro h hc
        exact h (Or.inr hc)

theorem lookupEntry_eq_some_of_mem_nodup :
    ∀ (es : List TreeEntry) (n : String) (y : Mode × GitObject),
      (es.map entryName).Nodup → (n, y) ∈ es → lookupEntry es n = some y
  | [], n, y, _, hm => by simp at hm
  | (m, z) :: rest, n, y, hnd, hm => by
    rcases List.nodup_cons.mp hnd with ⟨hm0, hnd2⟩
    rcases List.mem_cons.mp hm with he | he
    · injection he with h1 h2
      rw [lookupEntry, if_pos h1.symm, h2]
    · by_cases hmn : m = n
      · exfalso
        apply hm0
        rw [show entryName (m, z) = m from rfl, hmn]
        have : entryName (n, y) ∈ rest.map entryName := List.mem_map_of_mem entryName he
        exact this
      · rw [lookupEntry, if_neg hmn]
        exact lookupEntry_eq_some_of_mem_nodup rest n y hnd2 he

theorem lookupEntry_perm (es₁ es₂ : List TreeEntry) (hp : es₁.Perm es₂)
    (hnd : (es₁.map entryName).Nodup) (n : String) :
    lookupEntry es₁ n = lookupEntry es₂ n := by
  have hnd₂ : (es₂.map entryName).Nodup := ((hp.map entryName).nodup_iff).mp hnd
  cases h1 : lookupEntry es₁ n with
  | some y =>
    have hm : (n, y) ∈ es₂ := hp.mem_iff.mp (lookupEntry_mem _ _ _ h1)
    exact (lookupEntry_eq_some_of_mem_nodup es₂ n y hnd₂ hm).symm
  | none =>
    have hn2 : n ∉ es₂.map entryName := by
      intro hc
      exact (lookupEntry_eq_none_iff es₁ n).mp h1 (((hp.map entryName).mem_iff).mpr hc)
    exact ((lookupEntry_eq_none_iff es₂ n).mpr hn2).symm

theorem lookupEntry_sortBy (es : List TreeEntry) (hnd : (es.map entryName).Nodup)
    (n : String) : lookupEntry (sortBy entryName es) n = lookupEntry es n :=
  lookupEntry_perm _ _ (sortBy_perm entryName es)
    (((sortBy_map_key_perm entryName es).nodup_iff).mpr hnd) n

/-! ### Round trip: the accessor over a flushed stage reproduces the stage -/

theorem resolve_flush : ∀ (p : List String) (st : Stage), wfChildren st = true →
    ∀ v : FSNode, resolveStage st p = some v →
    resolveObj (.directory, flushStage st) p = .ok (modeOf v, flushNode v)
  | [], st, _, v, h => by
    rw [resolveStage] at h
    injection h with h
    rw [← h]
    rfl
  | n :: rest, st, hwf, v, h => by
    have hkeys : ((flushChildren st).map entryName).Nodup := by
      rw [flushChildren_keys]
      exact wfChildren_keys_nodup st hwf
    cases hl : lookupChild st n with
    | none =>
      simp [resolveStage, hl] at h
    | some w =>
      have hle : lookupEntry (sortBy entryName (flushChildren st)) n
          = some (modeOf w, flushNode w) := by
        rw [lookupEntry_sortBy _ hkeys, lookupEntry_flushChildren, hl]
        rfl
      cases w with
      | directory sub =>
        simp only [resolveStage, hl] at h
        have hsub : wfChildren sub = true := wf_lookup st n _ hwf hl
        simp only [flushStage, resolveObj, hle]
        exact resolve_flush rest sub hsub v h
      | regular c e =>
        simp only [resolveStage, hl] at h
        cases rest with
        | nil =>
          simp only [List.isEmpty_nil, if_pos] at h
          injection h with h
          simp only [flushStage, resolveObj, hle, ← h]
        | cons r rs =>
          simp at h
      | symlink t =>
        simp only [resolveStage, hl] at h
        cases rest with
        | nil =>
          simp only [List.isEmpty_nil, if_pos] at h
          injection h with h
          simp only [flushStage, resolveObj, hle, ← h]
          rfl
        | cons r rs =>
          simp at h

/-! ### Lemmas about path resolution and setChild -/

theorem resolveStage_setChild_ne (cs : Stage) (n a : String) (v : FSNode) (hne : a ≠ n)
    (q : List String) :
    resolveStage (setChild cs n v) (a :: q) = resolveStage cs (a :: q) := by
  simp only [resolveStage]
  rw [lookupChild_setChild_ne n a v hne cs]

theorem resolveStage_setChild_dir (cs : Stage) (n : String) (sub : Stage) (q : List String) :
    resolveStage (setChild cs n (.directory sub)) (n :: q) = resolveStage sub q := by
  simp only [resolveStage]
  rw [lookupChild_setChild_self]

theorem resolveStage_setChild_single (cs : Stage) (n : String) (v : FSNode) :
    resolveStage (setChild cs n v) [n] = some v := by
  simp only [resolveStage]
  rw [lookupChild_setChild_self]
  cases v <;> simp [resolveStage]

/-! ### Ancestor (initial segment) lemmas -/

theorem ancestorOf_nil (p : List String) : ancestorOf [] p := ⟨p, rfl⟩

theorem ancestorOf_self (p : List String) : ancestorOf p p := ⟨[], by simp⟩

theorem ancestorOf_cons {q : List String} {n : String} {rest : List String}
    (h : ancestorOf q (n :: rest)) :
    q = [] ∨ ∃ q2, q = n :: q2 ∧ ancestorOf q2 rest := by
  rcases q with _ | ⟨a, q2⟩
  · exact Or.inl rfl
  · rcases h with ⟨r, hr⟩
    injection hr with h1 h2
    exact Or.inr ⟨q2, by rw [h1], ⟨r, h2⟩⟩

theorem ancestorOf_cons_of (n : String) {q2 rest : List String} (h : ancestorOf q2 rest) :
    ancestorOf (n :: q2) (n :: rest) := by
  rcases h with ⟨r, hr⟩
  exact ⟨r, by rw [List.cons_append, hr]⟩

theorem ancestorOf_singleton {q : List String} {n : String} (h : ancestorOf q [n]) :
    q = [] ∨ q = [n] := by
  rcases ancestorOf_cons h with h | ⟨q2, hq, ha⟩
  · exact Or.inl h
  · rcases ha with ⟨r, hr⟩
    have : q2 = [] := by
      cases q2 with
      | nil => rfl
      | cons a q3 => simp at hr
    rw [this] at hq
    exact Or.inr hq

/-! ### Freshly built chains never conflict -/

theorem insertAt_nil_isSome : ∀ (p : List String) (e : NewEntry), p ≠ [] →
    ∃ sub, insertAt [] p e = some sub
  | [], _, h => absurd rfl h
  | [n], e, _ => by
    simp [insertAt, lookupChild]
  | n :: m :: rest, e, _ => by
    rcases insertAt_nil_isSome (m :: rest) e (by simp) with ⟨sub, hsub⟩
    simp [insertAt, lookupChild, hsub]

/-! ### Frame property: insertion preserves staged regular files elsewhere -/

theorem insertAt_frame : ∀ (p : List String) (cs cs2 : Stage) (e : NewEntry),
    insertAt cs p e = some cs2 →
    ∀ (q : List String) (c : String) (ex : Bool),
      resolveStage cs q = some (.regular c ex) → resolveStage cs2 q = some (.regular c ex)
  | [], cs, cs2, e, h => by simp [insertAt] at h
  | [n], cs, cs2, e, h => by
    intro q c ex hq
    cases hl : lookupChild cs n with
    | none =>
      simp only [insertAt, hl] at h
      injection h with h
      rcases q with _ | ⟨a, q2⟩
      · simp [resolveStage] at hq
      · by_cases ha : a = n
        · rw [ha] at hq
          simp [resolveStage, hl] at hq
        · rw [← h, resolveStage_setChild_ne cs n a _ ha q2]
          exact hq
    | some w =>
      cases w with
      | directory sub =>
        cases e with
        | dir =>
          simp only [insertAt, hl] at h
          injection h with h
          rw [← h]
          exact hq
        | leaf v => simp [insertAt, hl] at h
      | regular c2 e2 => simp [insertAt, hl] at h
      | symlink t => simp [insertAt, hl] at h
  | n :: m :: rest, cs, cs2, e, h => by
    intro q c ex hq
    cases hl : lookupChild cs n with
    | none =>
      simp only [insertAt, hl] at h
      rcases Option.map_eq_some'.mp h with ⟨sub, hsub, hset⟩
      rcases q with _ | ⟨a, q2⟩
      · simp [resolveStage] at hq
      · by_cases ha : a = n
        · rw [ha] at hq
          simp [resolveStage, hl] at hq
        · rw [← hset, resolveStage_setChild_ne cs n a _ ha q2]
          exact hq
    | some w =>
      cases w with
      | directory sub =>
        simp only [insertAt, hl] at h
        rcases Option.map_eq_some'.mp h with ⟨sub2, hsub2, hset⟩
        rcases q with _ | ⟨a, q2⟩
        · simp [resolveStage] at hq
        · by_cases ha : a = n
          · rw [ha] at hq ⊢
            rw [← hset, resolveStage_setChild_dir]
            simp only [resolveStage, hl] at hq
            exact insertAt_frame (m :: rest) sub sub2 e hsub2 q2 c ex hq
          · rw [← hset, resolveStage_setChild_ne cs n a _ ha q2]
            exact hq
      | regular c2 e2 => simp [insertAt, hl] at h
      | symlink t => simp [insertAt, hl] at h

/-! ### Insertion places the new entry at the requested path -/

theorem insertAt_resolve_leaf : ∀ (p : List String) (cs cs2 : Stage) (v : FSNode),
    insertAt cs p (.leaf v) = some cs2 → resolveStage cs2 p = some v
  | [], cs, cs2, v, h => by simp [insertAt] at h
  | [n], cs, cs2, v, h => by
    cases hl : lookupChild cs n with
    | none =>
      simp only [insertAt, hl] at h
      injection h with h
      rw [← h]
      exact resolveStage_setChild_single cs n v
    | some w => cases w <;> simp [insertAt, hl] at h
  | n :: m :: rest, cs, cs2, v, h => by
    cases hl : lookupChild cs n with
    | none =>
      simp only [insertAt, hl] at h
      rcases Option.map_eq_some'.mp h with ⟨sub, hsub, hset⟩
      rw [← hset, resolveStage_setChild_dir]
      exact insertAt_resolve_leaf (m :: rest) [] sub v hsub
    | some w =>
      cases w with
      | directory sub =>
        simp only [insertAt, hl] at h
        rcases Option.map_eq_some'.mp h with ⟨sub2, hsub2, hset⟩
        rw [← hset, resolveStage_setChild_dir]
        exact insertAt_resolve_leaf (m :: rest) sub sub2 v hsub2
      | regular c2 e2 => simp [insertAt, hl] at h
      | symlink t => simp [insertAt, hl] at h

theorem insertAt_resolve_dir : ∀ (p : List String) (cs cs2 : Stage),
    insertAt cs p .dir = some cs2 → ∃ ds, resolveStage cs2 p = some (.directory ds)
  | [], cs, cs2, h => by simp [insertAt] at h
  | [n], cs, cs2, h => by
    cases hl : lookupChild cs n with
    | none =>
      simp only [insertAt, hl] at h
      injection h with h
      exact ⟨[], by rw [← h]; exact resolveStage_setChild_single cs n (.directory [])⟩
    | some w =>
      cases w with
      | directory sub =>
        simp only [insertAt, hl] at h
        injection h with h
        refine ⟨sub, ?_⟩
        rw [← h]
        simp [resolveStage, hl]
      | regular c2 e2 => simp [insertAt, hl] at h
      | symlink t => simp [insertAt, hl] at h
  | n :: m :: rest, cs, cs2, h => by
    cases hl : lookupChild cs n with
    | none =>
      simp only [insertAt, hl] at h
      rcases Option.map_eq_some'.mp h with ⟨sub, hsub, hset⟩
      rcases insertAt_resolve_dir (m :: rest) [] sub hsub with ⟨ds, hds⟩
      exact ⟨ds, by rw [← hset, resolveStage_setChild_dir]; exact hds⟩
    | some w =>
      cases w with
      | directory sub =>
        simp only [insertAt, hl] at h
        rcases Option.map_eq_some'.mp h with ⟨sub2, hsub2, hset⟩
        rcases insertAt_resolve_dir (m :: rest) sub sub2 hsub2 with ⟨ds, hds⟩
        exact ⟨ds, by rw [← hset, resolveStage_setChild_dir]; exact hds⟩
      | regular c2 e2 => simp [insertAt, hl] at h
      | symlink t => simp [insertAt, hl] at h

/-! ### Auto-created ancestors are directories -/

theorem insertAt_ancestors : ∀ (p : List String) (cs cs2 : Stage) (e : NewEntry),
    insertAt cs p e = some cs2 →
    ∀ q, ancestorOf q p → q ≠ p → ∃ ds, resolveStage cs2 q = some (.directory ds)
  | [], cs, cs2, e, h => by simp [insertAt] at h
  | [n], cs, cs2, e, h => by
    intro q hq hne
    rcases ancestorOf_singleton hq with rfl | rfl
    · exact ⟨cs2, rfl⟩
    · exact absurd rfl hne
  | n :: m :: rest, cs, cs2, e, h => by
    intro q hq hne
    rcases ancestorOf_cons hq with rfl | ⟨q2, rfl, ha⟩
    · exact ⟨cs2, rfl⟩
    · have hne2 : q2 ≠ m :: rest := by
        intro hc
        rw [hc] at hne
        exact hne rfl
      cases hl : lookupChild cs n with
      | none =>
        simp only [insertAt, hl] at h
        rcases Option.map_eq_some'.mp h with ⟨sub, hsub, hset⟩
        rcases insertAt_ancestors (m :: rest) [] sub e hsub q2 ha hne2 with ⟨ds, hds⟩
        exact ⟨ds, by rw [← hset, resolveStage_setChild_dir]; exact hds⟩
      | some w =>
        cases w with
        | directory sub =>
          simp only [insertAt, hl] at h
          rcases Option.map_eq_some'.mp h with ⟨sub2, hsub2, hset⟩
          rcases insertAt_ancestors (m :: rest) sub sub2 e hsub2 q2 ha hne2 with ⟨ds, hds⟩
          exact ⟨ds, by rw [← hset, resolveStage_setChild_dir]; exact hds⟩
        | regular c2 e2 => simp [insertAt, hl] at h
        | symlink t => simp [insertAt, hl] at h

/-! ### Insertion preserves well-formedness -/

theorem insertAt_wf : ∀ (p : List String) (cs cs2 : Stage) (e : NewEntry),
    wfChildren cs = true → wfNode (newNode e) = true →
    insertAt cs p e = some cs2 → wfChildren cs2 = true
  | [], cs, cs2, e, _, _, h => by simp [insertAt] at h
  | [n], cs, cs2, e, hwf, hv, h => by
    cases hl : lookupChild cs n with
    | none =>
      simp only [insertAt, hl] at h
      injection h with h
      rw [← h]
      exact wf_setChild n (newNode e) cs hwf hv
    | some w =>
      cases w with
      | directory sub =>
        cases e with
        | dir =>
          simp only [insertAt, hl] at h
          injection h with h
          rw [← h]
          exact hwf
        | leaf v => simp [insertAt, hl] at h
      | regular c2 e2 => simp [insertAt, hl] at h
      | symlink t => simp [insertAt, hl] at h
  | n :: m :: rest, cs, cs2, e, hwf, hv, h => by
    cases hl : lookupChild cs n with
    | none =>
      simp only [insertAt, hl] at h
      rcases Option.map_eq_some'.mp h with ⟨sub, hsub, hset⟩
      have hsubwf : wfChildren sub = true := insertAt_wf (m :: rest) [] sub e rfl hv hsub
      rw [← hset]
      exact wf_setChild n (.directory sub) cs hwf hsubwf
    | some w =>
      cases w with
      | directory sub =>
        simp only [insertAt, hl] at h
        rcases Option.map_eq_some'.mp h with ⟨sub2, hsub2, hset⟩
        have hsubwf : wfChildren sub = true := wf_lookup cs n _ hwf hl
        have hsub2wf : wfChildren sub2 = true := insertAt_wf (m :: rest) sub sub2 e hsubwf hv hsub2
        rw [← hset]
        exact wf_setChild n (.directory sub2) cs hwf hsub2wf
      | regular c2 e2 => simp [insertAt, hl] at h
      | symlink t => simp [insertAt, hl] at h

/-! ### Conflict characterization for directory creation -/

theorem insertAt_dir_none_of_leaf : ∀ (p : List String) (st : Stage),
    (∃ q, ancestorOf q p ∧ isLeafAt st q = true) → insertAt st p .dir = none
  | [], st, h => by simp [insertAt]
  | [n], st, h => by
    rcases h with ⟨q, hq, hleaf⟩
    rcases ancestorOf_singleton hq with rfl | rfl
    · simp [isLeafAt, resolveStage] at hleaf
    · cases hl : lookupChild st n with
      | none => simp [isLeafAt, resolveStage, hl] at hleaf
      | some w =>
        cases w with
        | directory sub =>
          simp [isLeafAt, resolveStage, hl] at hleaf
        | regular c e => simp [insertAt, hl]
        | symlink t => simp [insertAt, hl]
  | n :: m :: rest, st, h => by
    rcases h with ⟨q, hq, hleaf⟩
    rcases ancestorOf_cons hq with rfl | ⟨q2, rfl, ha⟩
    · simp [isLeafAt, resolveStage] at hleaf
    · cases hl : lookupChild st n with
      | none => simp [isLeafAt, resolveStage, hl] at hleaf
      | some w =>
        cases w with
        | directory sub =>
          have hleaf2 : isLeafAt sub q2 = true := by
            simpa [isLeafAt, resolveStage, hl] using hleaf
          have hq2ne : q2 ≠ [] := by
            intro hc
            rw [hc] at hleaf2
            simp [isLeafAt, resolveStage] at hleaf2
          have : insertAt sub (m :: rest) .dir = none :=
            insertAt_dir_none_of_leaf (m :: rest) sub ⟨q2, ha, hleaf2⟩
          simp [insertAt, hl, this]
        | regular c e => simp [insertAt, hl]
        | symlink t => simp [insertAt, hl]

theorem insertAt_dir_leaf_of_none : ∀ (p : List String) (st : Stage), p ≠ [] →
    insertAt st p .dir = none → ∃ q, ancestorOf q p ∧ isLeafAt st q = true
  | [], _, hne, _ => absurd rfl hne
  | [n], st, _, h => by
    cases hl : lookupChild st n with
    | none => simp [insertAt, hl] at h
    | some w =>
      cases w with
      | directory sub => simp [insertAt, hl] at h
      | regular c e =>
        exact ⟨[n], ancestorOf_self _, by simp [isLeafAt, resolveStage, hl]⟩
      | symlink t =>
        exact ⟨[n], ancestorOf_self _, by simp [isLeafAt, resolveStage, hl]⟩
  | n :: m :: rest, st, _, h => by
    cases hl : lookupChild st n with
    | none =>
      rcases insertAt_nil_isSome (m :: rest) .dir (by simp) with ⟨sub, hsub⟩
      simp [insertAt, hl, hsub] at h
    | some w =>
      cases w with
      | directory sub =>
        have hsub : insertAt sub (m :: rest) .dir = none := by
          cases hx : insertAt sub (m :: rest) .dir with
          | none => rfl
          | some s2 => simp [insertAt, hl, hx] at h
        rcases insertAt_dir_leaf_of_none (m :: rest) sub (by simp) hsub with ⟨q2, ha, hleaf2⟩
        refine ⟨n :: q2, ancestorOf_cons_of n ha, ?_⟩
        simpa [isLeafAt, resolveStage, hl] using hleaf2
      | regular c e =>
        exact ⟨[n], ⟨m :: rest, rfl⟩, by simp [isLeafAt, resolveStage, hl]⟩
      | symlink t =>
        exact ⟨[n], ⟨m :: rest, rfl⟩, by simp [isLeafAt, resolveStage, hl]⟩

/-! ### A leaf at a proper ancestor blocks leaf insertion too -/

theorem insertAt_leaf_none_of_leaf : ∀ (p : List String) (st : Stage) (v : FSNode),
    (∃ q, ancestorOf q p ∧ q ≠ p ∧ isLeafAt st q = true) →
    insertAt st p (.leaf v) = none
  | [], st, v, _ => by simp [insertAt]
  | [n], st, v, h => by
    rcases h with ⟨q, hq, hne, hleaf⟩
    rcases ancestorOf_singleton hq with rfl | rfl
    · simp [isLeafAt, resolveStage] at hleaf
    · exact absurd rfl hne
  | n :: m :: rest, st, v, h => by
    rcases h with ⟨q, hq, hne, hleaf⟩
    rcases ancestorOf_cons hq with rfl | ⟨q2, rfl, ha⟩
    · simp [isLeafAt, resolveStage] at hleaf
    · cases hl : lookupChild st n with
      | none => simp [isLeafAt, resolveStage, hl] at hleaf
      | some w =>
        cases w with
        | directory sub =>
          have hleaf2 : isLeafAt sub q2 = true := by
            simpa [isLeafAt, resolveStage, hl] using hleaf
          have hq2ne : q2 ≠ m :: rest := by
            intro hc
            rw [hc] at hne
            exact hne rfl
          have : insertAt sub (m :: rest) (.leaf v) = none :=
            insertAt_leaf_none_of_leaf (m :: rest) sub v ⟨q2, ha, hq2ne, hleaf2⟩
          simp [insertAt, hl, this]
        | regular c e => simp [insertAt, hl]
        | symlink t => simp [insertAt, hl]

/-! ### Canonical form of a stage: the logical tree content

Two stages have the same logical content (same names, file contents, modes) at
every level, regardless of insertion order, exactly when their canonical forms
(children sorted by name at every level) are equal. -/

mutual

def canonicalNode : FSNode → FSNode
  | .regular c e => .regular c e
  | .symlink t => .symlink t
  | .directory cs => .directory (sortBy Prod.fst (canonicalChildren cs))

def canonicalChildren : Stage → Stage
  | [] => []
  | (n, v) :: rest => (n, canonicalNode v) :: canonicalChildren rest

end

def canonicalStage (st : Stage) : Stage := sortBy Prod.fst (canonicalChildren st)

theorem modeOf_canonical : ∀ v : FSNode, modeOf (canonicalNode v) = modeOf v
  | .regular _ _ => rfl
  | .symlink _ => rfl
  | .directory _ => rfl

theorem canonicalChildren_keys : ∀ cs : Stage,
    (canonicalChildren cs).map Prod.fst = cs.map Prod.fst
  | [] => rfl
  | (n, v) :: rest => by simp [canonicalChildren, canonicalChildren_keys rest]

theorem flushChildren_perm (l₁ l₂ : Stage) (hp : l₁.Perm l₂) :
    (flushChildren l₁).Perm (flushChildren l₂) := by
  rw [flushChildren_eq_map, flushChildren_eq_map]
  exact hp.map _

theorem sort_flush_congr (cs : Stage) (hnd : (cs.map Prod.fst).Nodup)
    (h1 : flushChildren (canonicalChildren cs) = flushChildren cs) :
    sortBy entryName (flushChildren (sortBy Prod.fst (canonicalChildren cs)))
      = sortBy entryName (flushChildren cs) := by
  have hperm : (flushChildren (sortBy Prod.fst (canonicalChildren cs))).Perm
      (flushChildren cs) := by
    have hp := flushChildren_perm _ _ (sortBy_perm Prod.fst (canonicalChildren cs))
    rw [h1] at hp
    exact hp
  apply sortBy_congr_of_perm entryName _ _ hperm
  rw [flushChildren_keys]
  have hkp : ((sortBy Prod.fst (canonicalChildren cs)).map Prod.fst).Perm
      (cs.map Prod.fst) := by
    have := sortBy_map_key_perm Prod.fst (canonicalChildren cs)
    rw [canonicalChildren_keys] at this
    exact this
  exact hkp.nodup_iff.mpr hnd

mutual

theorem flushNode_canonical : ∀ v : FSNode, wfNode v = true →
    flushNode (canonicalNode v) = flushNode v
  | .regular _ _, _ => rfl
  | .symlink _, _ => rfl
  | .directory cs, h => by
    have hcs : wfChildren cs = true := by simpa [wfNode] using h
    simp only [canonicalNode, flushNode]
    rw [sort_flush_congr cs (wfChildren_keys_nodup cs hcs) (flushChildren_canonical cs hcs)]

theorem flushChildren_canonical : ∀ cs : Stage, wfChildren cs = true →
    flushChildren (canonicalChildren cs) = flushChildren cs
  | [], _ => rfl
  | (n, v) :: rest, h => by
    rcases wfChildren_cons h with ⟨_, hv, hrest⟩
    simp only [canonicalChildren, flushChildren]
    rw [modeOf_canonical, flushNode_canonical v hv, flushChildren_canonical rest hrest]

end

theorem flushStage_canonical (st : Stage) (h : wfChildren st = true) :
    flushStage (canonicalStage st) = flushStage st := by
  simp only [flushStage, canonicalStage]
  rw [sort_flush_congr st (wfChildren_keys_nodup st h) (flushChildren_canonical st h)]

/-! ### Accessor path-walking lemmas -/

theorem resolveObj_append : ∀ (pre : List String) (x : Mode × GitObject) (suf : List String),
    resolveObj x (pre ++ suf) = (resolveObj x pre).bind (fun y => resolveObj y suf)
  | [], x, suf => by simp [resolveObj, Except.bind]
  | n :: pre, x, suf => by
    rcases x with ⟨m, o⟩
    cases m with
    | directory =>
      cases o with
      | tree es =>
        simp only [List.cons_append, resolveObj]
        cases hl : lookupEntry es n with
        | some y => exact resolveObj_append pre y suf
        | none => simp [Except.bind]
      | blob c => simp [resolveObj, Except.bind]
    | regular => cases o <;> simp [resolveObj, Except.bind]
    | executableRegular => cases o <;> simp [resolveObj, Except.bind]
    | symlink => cases o <;> simp [resolveObj, Except.bind]

theorem resolveObj_cons_notdir (m : Mode) (o : GitObject) (hm : m ≠ .directory)
    (n : String) (rest : List String) :
    resolveObj (m, o) (n :: rest) = .error .notADirectory := by
  cases m with
  | directory => exact absurd rfl hm
  | regular => cases o <;> rfl
  | executableRegular => cases o <;> rfl
  | symlink => cases o <;> rfl

/-! ### JSON values as trees (used to model object_set_strings)

std.json.Value is a tagged union of integers, booleans, strings, arrays and
objects.  For the string-array setter only the object map with string values
matters; it is modelled as an association list with replace-or-append
insertion (the observable get/put behavior of the hash map).  The aliasing
structure of aggregate values is irrelevant here and is modelled separately
below for the object_get claims. -/

inductive JsonVal where
  | integer (i : Int)
  | jbool (b : Bool)
  | str (s : String)
  | array (items : List JsonVal)
  | object (entries : List (String × JsonVal))

def putField : List (String × JsonVal) → String → JsonVal → List (String × JsonVal)
  | [], k, v => [(k, v)]
  | (m, w) :: rest, k, v => if m = k then (k, v) :: rest else (m, w) :: putField rest k v

def lookupField : List (String × JsonVal) → String → Option JsonVal
  | [], _ => none
  | (m, w) :: rest, k => if m = k then some w else lookupField rest k

/-! ### JSON string-array setter (json.hh and libutil.zig)

nix_libutil_json_object_set_strings iterates over the first size cells of a
C array of string pointers, putting each string under the same key.  Reading
the length of a null pointer is undefined behavior; the model makes the
operation fail (returning none) at the first null cell.  The C++ wrapper
json::set_strings builds an array of n string pointers plus a terminating
null pointer and passes n+1 as the size. -/

def object_set_strings (m : List (String × JsonVal)) (key : String) :
    List (Option String) → Option (List (String × JsonVal))
  | [] => some m
  | some s :: rest => object_set_strings (putField m key (.str s)) key rest
  | none :: _ => none

def set_strings (m : List (String × JsonVal)) (key : String) (ss : List String) :
    Option (List (String × JsonVal)) :=
  object_set_strings m key (ss.map some ++ [none])

/-! ### Field map lemmas -/

theorem lookupField_putField_self (k : String) (v : JsonVal) :
    ∀ m : List (String × JsonVal), lookupField (putField m k v) k = some v
  | [] => by simp [putField, lookupField]
  | (a, w) :: rest => by
    by_cases ha : a = k
    · simp [putField, lookupField, ha]
    · simp [putField, lookupField, ha, lookupField_putField_self k v rest]

theorem lookupField_putField_ne (k k2 : String) (v : JsonVal) (hne : k2 ≠ k) :
    ∀ m : List (String × JsonVal), lookupField (putField m k v) k2 = lookupField m k2
  | [] => by
    have hkk : ¬ k = k2 := fun hh => hne hh.symm
    simp [putField, lookupField, hkk]
  | (a, w) :: rest => by
    by_cases ha : a = k
    · have hkk : ¬ k = k2 := fun hh => hne hh.symm
      have hak : ¬ a = k2 := by rw [ha]; exact hkk
      simp [putField, if_pos ha, lookupField, hkk, hak]
    · simp only [putField, if_neg ha, lookupField]
      by_cases hk2 : a = k2
      · simp [hk2]
      · simp [hk2, lookupField_putField_ne k k2 v hne rest]

theorem object_set_strings_spec (key : String) :
    ∀ (ss : List String) (slast : String) (m : List (String × JsonVal)),
    ∃ m2, object_set_strings m key ((ss ++ [slast]).map some) = some m2 ∧
      lookupField m2 key = some (.str slast) ∧
      ∀ k, k ≠ key → lookupField m2 k = lookupField m k
  | [], slast, m => by
    refine ⟨putField m key (.str slast), ?_, ?_, ?_⟩
    · simp [object_set_strings]
    · exact lookupField_putField_self key (.str slast) m
    · intro k hk
      exact lookupField_putField_ne key k (.str slast) hk m
  | s :: ss, slast, m => by
    rcases object_set_strings_spec key ss slast (putField m key (.str s)) with
      ⟨m2, hm2, hlast, hother⟩
    refine ⟨m2, ?_, hlast, ?_⟩
    · simpa [object_set_strings] using hm2
    · intro k hk
      rw [hother k hk, lookupField_putField_ne key k (.str s) hk m]

theorem object_set_strings_null (key : String) :
    ∀ (ss : List String) (m : List (String × JsonVal)),
    object_set_strings m key (ss.map some ++ [none]) = none
  | [], m => by simp [object_set_strings]
  | s :: ss, m => by
    simpa [object_set_strings] using
      object_set_strings_null key ss (putField m key (.str s))

/-! ### Read helpers over a flushed stage -/

theorem readFile_flush (st : Stage) (p : List String) (c : String) (e : Bool)
    (hwf : wfChildren st = true) (h : resolveStage st p = some (.regular c e)) :
    readFile (flushStage st) p = .ok c := by
  have hro := resolve_flush p st hwf _ h
  rw [readFile, hro]
  cases e <;> rfl

theorem readLink_flush (st : Stage) (p : List String) (t : String)
    (hwf : wfChildren st = true) (h : resolveStage st p = some (.symlink t)) :
    readLink (flushStage st) p = .ok t := by
  have hro := resolve_flush p st hwf _ h
  rw [readLink, hro]
  rfl

theorem readDirectory_flush (st : Stage) (p : List String) (cs : Stage)
    (hwf : wfChildren st = true) (h : resolveStage st p = some (.directory cs)) :
    ∃ l, readDirectory (flushStage st) p = .ok l ∧
      l.Perm (cs.map (fun c => (c.1, modeOf c.2))) := by
  have hro := resolve_flush p st hwf _ h
  refine ⟨(sortBy entryName (flushChildren cs)).map (fun e => (e.1, e.2.1)), ?_, ?_⟩
  · rw [readDirectory, hro]
    rfl
  · have hp1 : ((sortBy entryName (flushChildren cs)).map (fun e => (e.1, e.2.1))).Perm
        ((flushChildren cs).map (fun e => (e.1, e.2.1))) :=
      (sortBy_perm entryName (flushChildren cs)).map _
    have hp2 : (flushChildren cs).map (fun e => (e.1, e.2.1))
        = cs.map (fun c => (c.1, modeOf c.2)) := by
      rw [flushChildren_eq_map, List.map_map]
      rfl
    rw [hp2] at hp1
    exact hp1

/-! ### Idempotence of directory creation on existing directories -/

theorem insertAt_dir_noop : ∀ (p : List String) (st : Stage) (cs : Stage),
    resolveStage st p = some (.directory cs) → p ≠ [] → insertAt st p .dir = some st
  | [], _, _, _, hne => absurd rfl hne
  | [n], st, cs, h, _ => by
    cases hl : lookupChild st n with
    | none => simp [resolveStage, hl] at h
    | some w =>
      cases w with
      | directory sub => simp [insertAt, hl]
      | regular c e => simp [resolveStage, hl] at h
      | symlink t => simp [resolveStage, hl] at h
  | n :: m :: rest, st, cs, h, _ => by
    cases hl : lookupChild st n with
    | none => simp [resolveStage, hl] at h
    | some w =>
      cases w with
      | directory sub =>
        have hsub : resolveStage sub (m :: rest) = some (.directory cs) := by
          simpa [resolveStage, hl] using h
        have hin : insertAt sub (m :: rest) .dir = some sub :=
          insertAt_dir_noop (m :: rest) sub cs hsub (by simp)
        simp [insertAt, hl, hin, setChild_self n (.directory sub) st hl]
      | regular c e => simp [resolveStage, hl] at h
      | symlink t => simp [resolveStage, hl] at h

/-! ### Concrete scenarios from the test suite -/

/-- The staging sequence of the sink_basic test (Scenario A). -/
def scenarioAStage : Except SinkError Stage :=
  (createDirectory [] ["foo-1.1"]).bind fun s1 =>
  (createRegularFile s1 ["foo-1.1", "hello"] "hello world" false).bind fun s2 =>
  (createRegularFile s2 ["foo-1.1", "bye"] "thanks for all the fish" false).bind fun s3 =>
  (createSymlink s3 ["foo-1.1", "bye-link"] "bye").bind fun s4 =>
  (createDirectory s4 ["foo-1.1", "empty"]).bind fun s5 =>
  (createDirectory s5 ["foo-1.1", "links"]).bind fun s6 =>
  createHardlink s6 ["foo-1.1", "links", "foo"] ["foo-1.1", "hello"]

/-- flush plus singleton-directory unwrap of Scenario A. -/
def scenarioARoot : Option GitObject :=
  match scenarioAStage with
  | .ok st => some (dereferenceSingletonDirectory (flushStage st))
  | .error _ => none

/-- The staging state of the sink_hardlink test (Scenario B): directory
foo-1.1 containing the regular file hello. -/
def scenarioBStage : Stage :=
  match (createDirectory [] ["foo-1.1"]).bind
      (fun s => createRegularFile s ["foo-1.1", "hello"] "hello world" false) with
  | .ok st => st
  | .error _ => []

/-- s contains sub as a contiguous substring. -/
def containsSub (s sub : String) : Prop := ∃ x y, s = x ++ sub ++ y

/-! ### JSON memory model with shared backing storage
    (translated from src/src/libutil/libutil.zig)

A std.json.Value struct holds scalar variants inline, while its object
variant (a StringArrayHashMap) and array variant (an ArrayList) hold a
reference to backing storage (the map's entries buffer, the list's items
buffer) together with this struct's own length field.  The Zig struct
assignment result.* = result_value performed by object_get copies exactly
these fields — a shallow copy — so copies of aggregate values share their
backing buffer with the stored value while keeping an independent length
field.  The memory is modelled as heap cells holding Value structs plus the
two kinds of backing buffers, addressed by index; allocation appends a fresh
cell or buffer.  Buffer growth on append is modelled as writing at the view
length of the same buffer (the in-capacity case); a reallocation would give
the appending struct a fresher buffer and only weaken the sharing, so the
aliasing proved below is present either way. -/

inductive JVal where
  | integer (i : Int)
  | jbool (b : Bool)
  | str (s : String)
  | array (aid : Nat) (len : Nat)
  | object (oid : Nat) (len : Nat)

structure Mem where
  cells : List JVal
  arrays : List (List JVal)
  objects : List (List (String × JVal))

def getCell (mem : Mem) (p : Nat) : Option JVal := mem.cells[p]?

def setCell (mem : Mem) (p : Nat) (v : JVal) : Mem :=
  { mem with cells := mem.cells.set p v }

def allocCell (mem : Mem) (v : JVal) : Mem × Nat :=
  ({ mem with cells := mem.cells ++ [v] }, mem.cells.length)

def getObjBuf (mem : Mem) (oid : Nat) : List (String × JVal) :=
  (mem.objects[oid]?).getD []

def setObjBuf (mem : Mem) (oid : Nat) (buf : List (String × JVal)) : Mem :=
  { mem with objects := mem.objects.set oid buf }

def getArrBuf (mem : Mem) (aid : Nat) : List JVal :=
  (mem.arrays[aid]?).getD []

def setArrBuf (mem : Mem) (aid : Nat) (buf : List JVal) : Mem :=
  { mem with arrays := mem.arrays.set aid buf }

/-- Association lookup over (a view of) an entries buffer. -/
def lookupJ : List (String × JVal) → String → Option JVal
  | [], _ => none
  | (m, w) :: rest, k => if m = k then some w else lookupJ rest k

/-- Index of the entry holding the key among the first len entries of the
backing buffer, as scanned by ArrayHashMap lookup. -/
def findKey : List (String × JVal) → Nat → String → Option Nat
  | _, 0, _ => none
  | [], _ + 1, _ => none
  | (m, _) :: rest, n + 1, k =>
    if m = k then some 0 else (findKey rest n k).map (· + 1)

/-- ArrayHashMap.put over the first len entries of the backing buffer: an
existing key is overwritten in place in the shared buffer (length
unchanged); a new key is written at index len and the length grows. -/
def entriesPut (buf : List (String × JVal)) (len : Nat) (k : String) (v : JVal) :
    List (String × JVal) × Nat :=
  match findKey buf len k with
  | some i => (buf.set i (k, v), len)
  | none =>
    if len < buf.length then (buf.set len (k, v), len + 1)
    else (buf ++ [(k, v)], len + 1)

/-- object_get (libutil.zig): json_value.object.get(key) reads the value
struct out of the map view; on success a fresh cell is allocated and the
struct is copied into it — a shallow copy, so aggregate variants keep their
backing-buffer reference. -/
def object_get (mem : Mem) (p : Nat) (key : String) : Mem × Option Nat :=
  match getCell mem p with
  | some (.object oid len) =>
    match lookupJ ((getObjBuf mem oid).take len) key with
    | some v =>
      let al := allocCell mem v
      (al.1, some al.2)
    | none => (mem, none)
  | _ => (mem, none)

/-- object_set (libutil.zig): put(key, to_insert.*) copies the pointed-to
struct into the map entries buffer. -/
def object_set (mem : Mem) (p : Nat) (key : String) (vp : Nat) : Mem :=
  match getCell mem p, getCell mem vp with
  | some (.object oid len), some v =>
    let pb := entriesPut (getObjBuf mem oid) len key v
    setCell (setObjBuf mem oid pb.1) p (.object oid pb.2)
  | _, _ => mem

/-- object_set_string (libutil.zig): put of a string value built from the
argument. -/
def object_set_string (mem : Mem) (p : Nat) (key : String) (s : String) : Mem :=
  match getCell mem p with
  | some (.object oid len) =>
    let pb := entriesPut (getObjBuf mem oid) len key (.str s)
    setCell (setObjBuf mem oid pb.1) p (.object oid pb.2)
  | _ => mem

/-- string_get (libutil.zig): the string held by the value struct. -/
def string_get (mem : Mem) (p : Nat) : Option String :=
  match getCell mem p with
  | some (.str s) => some s
  | _ => none

/-- list_insert (libutil.zig): ArrayList append through the struct at p: the
copied value is written at the struct's length index of the backing buffer
and this struct's length field is bumped; other structs sharing the buffer
keep their own length fields. -/
def list_insert (mem : Mem) (p : Nat) (vp : Nat) : Mem :=
  match getCell mem p, getCell mem vp with
  | some (.array aid len), some v =>
    setCell (setArrBuf mem aid ((getArrBuf mem aid).take len ++ [v])) p
      (.array aid (len + 1))
  | _, _ => mem

/-- new_list (libutil.zig): a fresh empty ArrayList in a fresh cell. -/
def new_list (mem : Mem) : Mem × Nat :=
  allocCell { mem with arrays := mem.arrays ++ [[]] } (.array mem.arrays.length 0)

def integer_new (mem : Mem) (i : Int) : Mem × Nat := allocCell mem (.integer i)

def string_new (mem : Mem) (s : String) : Mem × Nat := allocCell mem (.str s)

/-- A logger field (logging.hh): either an integer or a string. -/
inductive LogField where
  | fInt (i : Int)
  | fStr (s : String)

/-- The loop body of JSONLogger::addFields: allocate each field value and
insert it into the array struct obtained from object_get. -/
def insertFields (arr : Nat) : Mem → List LogField → Mem
  | mem, [] => mem
  | mem, .fInt i :: rest =>
    let al := integer_new mem i
    insertFields arr (list_insert al.1 arr al.2) rest
  | mem, .fStr s :: rest =>
    let al := string_new mem s
    insertFields arr (list_insert al.1 arr al.2) rest

/-- JSONLogger::addFields (libutil.zig slice, C++ side): if fields is empty do
nothing; otherwise set the object's fields key to a new empty list, fetch
that entry back through nix_libutil_json_object_get, and append each field
through the fetched pointer. -/
def addFields (mem : Mem) (jp : Nat) (fields : List LogField) : Mem :=
  if fields.isEmpty then mem
  else
    let nl := new_list mem
    let mem2 := object_set nl.1 jp "fields" nl.2
    match object_get mem2 jp "fields" with
    | (mem3, some arr) => insertFields arr mem3 fields
    | (mem3, none) => mem3

/-- The observable list denoted by the entry stored under key inside the
object at p: read the stored struct and dereference its view of the backing
buffer. -/
def observeFieldList (mem : Mem) (p : Nat) (key : String) : Option (List JVal) :=
  match getCell mem p with
  | some (.object oid len) =>
    match lookupJ ((getObjBuf mem oid).take len) key with
    | some (.array aid alen) => some ((getArrBuf mem aid).take alen)
    | _ => none
  | _ => none

/-- The string observably stored under key2 inside the object stored under
key1 inside the object at p. -/
def observeNestedString (mem : Mem) (p : Nat) (key1 key2 : String) : Option String :=
  match getCell mem p with
  | some (.object oid len) =>
    match lookupJ ((getObjBuf mem oid).take len) key1 with
    | some (.object oid2 len2) =>
      match lookupJ ((getObjBuf mem oid2).take len2) key2 with
      | some (.str s) => some s
      | _ => none
    | _ => none
  | _ => none

/-- A memory whose cell 0 holds an object binding k to a nested object that
binds x to the string old. -/
def aliasMem : Mem :=
  { cells := [JVal.object 1 1]
  , arrays := []
  , objects := [[("x", JVal.str "old")], [("k", JVal.object 0 1)]] }


/-! ### Lemmas about the entries buffer -/

theorem findKey_lookup (k : String) (v : JVal) :
    ∀ (buf : List (String × JVal)) (len i : Nat),
      findKey buf len k = some i →
      lookupJ ((buf.set i (k, v)).take len) k = some v
  | buf, 0, i, h => by simp [findKey] at h
  | [], n + 1, i, h => by simp [findKey] at h
  | (m, w) :: rest, n + 1, i, h => by
    by_cases hm : m = k
    · rw [findKey, if_pos hm] at h
      injection h with h
      rw [← h, List.set_cons_zero, List.take_succ_cons, lookupJ, if_pos rfl]
    · rw [findKey, if_neg hm] at h
      rcases Option.map_eq_some'.mp h with ⟨i2, hi2, hii⟩
      rw [← hii, List.set_cons_succ, List.take_succ_cons, lookupJ, if_neg hm]
      exact findKey_lookup k v rest n i2 hi2

theorem findKey_none_lt (k : String) (v : JVal) :
    ∀ (buf : List (String × JVal)) (len : Nat),
      findKey buf len k = none → len < buf.length →
      lookupJ ((buf.set len (k, v)).take (len + 1)) k = some v
  | [], 0, _, hlt => by simp at hlt
  | b :: rest, 0, _, _ => by
    rw [List.set_cons_zero, List.take_succ_cons, List.take_zero, lookupJ, if_pos rfl]
  | [], n + 1, _, hlt => by simp at hlt
  | (m, w) :: rest, n + 1, h, hlt => by
    by_cases hm : m = k
    · rw [findKey, if_pos hm] at h
      exact absurd h (by simp)
    · rw [findKey, if_neg hm] at h
      have hr : findKey rest n k = none := by
        cases hx : findKey rest n k with
        | none => rfl
        | some i => rw [hx] at h; simp at h
      rw [List.set_cons_succ, List.take_succ_cons, lookupJ, if_neg hm]
      exact findKey_none_lt k v rest n hr (by simp at hlt; omega)

theorem findKey_none_ge (k : String) :
    ∀ (buf : List (String × JVal)) (len : Nat),
      findKey buf len k = none → buf.length ≤ len → lookupJ buf k = none
  | [], _, _, _ => rfl
  | (m, w) :: rest, 0, _, hle => by simp at hle
  | (m, w) :: rest, n + 1, h, hle => by
    by_cases hm : m = k
    · rw [findKey, if_pos hm] at h
      exact absurd h (by simp)
    · rw [findKey, if_neg hm] at h
      have hr : findKey rest n k = none := by
        cases hx : findKey rest n k with
        | none => rfl
        | some i => rw [hx] at h; simp at h
      rw [lookupJ, if_neg hm]
      exact findKey_none_ge k rest n hr (by simp at hle; omega)

theorem lookupJ_append_none (k : String) :
    ∀ (l1 l2 : List (String × JVal)), lookupJ l1 k = none →
      lookupJ (l1 ++ l2) k = lookupJ l2 k
  | [], l2, _ => rfl
  | (m, w) :: rest, l2, h => by
    by_cases hm : m = k
    · rw [lookupJ, if_pos hm] at h
      exact absurd h (by simp)
    · rw [lookupJ, if_neg hm] at h
      rw [List.cons_append, lookupJ, if_neg hm]
      exact lookupJ_append_none k rest l2 h

theorem entriesPut_lookup (buf : List (String × JVal)) (len : Nat) (k : String)
    (v : JVal) :
    lookupJ ((entriesPut buf len k v).1.take (entriesPut buf len k v).2) k = some v := by
  cases hf : findKey buf len k with
  | some i =>
    have he : entriesPut buf len k v = (buf.set i (k, v), len) := by
      rw [entriesPut, hf]
    rw [he]
    exact findKey_lookup k v buf len i hf
  | none =>
    by_cases hlt : len < buf.length
    · have he : entriesPut buf len k v = (buf.set len (k, v), len + 1) := by
        rw [entriesPut, hf]
        simp [hlt]
      rw [he]
      exact findKey_none_lt k v buf len hf hlt
    · have he : entriesPut buf len k v = (buf ++ [(k, v)], len + 1) := by
        rw [entriesPut, hf]
        simp [hlt]
      rw [he]
      have hle : buf.length ≤ len := Nat.le_of_not_lt hlt
      have htake : (buf ++ [(k, v)]).take (len + 1) = buf ++ [(k, v)] :=
        List.take_of_length_le (by simp; omega)
      rw [htake, lookupJ_append_none k buf _ (findKey_none_ge k buf len hf hle),
        lookupJ, if_pos rfl]

/-! ### Memory lemmas -/

theorem getCell_lt {mem : Mem} {p : Nat} {v : JVal} (h : getCell mem p = some v) :
    p < mem.cells.length := by
  by_contra hc
  push_neg at hc
  rw [getCell, List.getElem?_eq_none hc] at h
  exact absurd h (by simp)

theorem list_insert_cells_frame (mem : Mem) (p vp r : Nat) (hne : r ≠ p) :
    getCell (list_insert mem p vp) r = getCell mem r := by
  rw [list_insert]
  cases h1 : getCell mem p with
  | none => rfl
  | some w =>
    cases h2 : getCell mem vp with
    | none => cases w <;> rfl
    | some v =>
      cases w with
      | array aid len =>
        show (mem.cells.set p _)[r]? = mem.cells[r]?
        exact List.getElem?_set_ne (Ne.symm hne)
      | integer i => rfl
      | jbool b => rfl
      | str s => rfl
      | object oid len => rfl

theorem list_insert_cells_length (mem : Mem) (p vp : Nat) :
    (list_insert mem p vp).cells.length = mem.cells.length := by
  rw [list_insert]
  cases h1 : getCell mem p with
  | none => rfl
  | some w =>
    cases h2 : getCell mem vp with
    | none => cases w <;> rfl
    | some v =>
      cases w with
      | array aid len =>
        show (mem.cells.set p _).length = mem.cells.length
        exact List.length_set _ _ _
      | integer i => rfl
      | jbool b => rfl
      | str s => rfl
      | object oid len => rfl

theorem list_insert_objects (mem : Mem) (p vp : Nat) :
    (list_insert mem p vp).objects = mem.objects := by
  rw [list_insert]
  cases h1 : getCell mem p with
  | none => rfl
  | some w =>
    cases h2 : getCell mem vp with
    | none => cases w <;> rfl
    | some v => cases w <;> rfl

theorem insertFields_cells_frame :
    ∀ (fields : List LogField) (mem : Mem) (arr r : Nat), r ≠ arr →
      r < mem.cells.length →
      getCell (insertFields arr mem fields) r = getCell mem r
  | [], _, _, _, _, _ => rfl
  | .fInt i :: rest, mem, arr, r, hne, hlt => by
    rw [insertFields]
    have hlen : r < (list_insert (integer_new mem i).1 arr
        (integer_new mem i).2).cells.length := by
      rw [list_insert_cells_length]
      show r < (mem.cells ++ [JVal.integer i]).length
      simp
      omega
    rw [insertFields_cells_frame rest _ arr r hne hlen,
      list_insert_cells_frame _ _ _ _ hne]
    show (mem.cells ++ [JVal.integer i])[r]? = mem.cells[r]?
    exact List.getElem?_append_left hlt
  | .fStr s :: rest, mem, arr, r, hne, hlt => by
    rw [insertFields]
    have hlen : r < (list_insert (string_new mem s).1 arr
        (string_new mem s).2).cells.length := by
      rw [list_insert_cells_length]
      show r < (mem.cells ++ [JVal.str s]).length
      simp
      omega
    rw [insertFields_cells_frame rest _ arr r hne hlen,
      list_insert_cells_frame _ _ _ _ hne]
    show (mem.cells ++ [JVal.str s])[r]? = mem.cells[r]?
    exact List.getElem?_append_left hlt

theorem insertFields_objects :
    ∀ (fields : List LogField) (mem : Mem) (arr : Nat),
      (insertFields arr mem fields).objects = mem.objects
  | [], _, _ => rfl
  | .fInt i :: rest, mem, arr => by
    rw [insertFields, insertFields_objects rest, list_insert_objects]
    rfl
  | .fStr s :: rest, mem, arr => by
    rw [insertFields, insertFields_objects rest, list_insert_objects]
    rfl


/-! ### object_get allocates a fresh shallow copy -/

theorem object_get_spec (mem : Mem) (p : Nat) (key : String) (mem2 : Mem) (q : Nat)
    (h : object_get mem p key = (mem2, some q)) :
    ∃ oid len v, getCell mem p = some (.object oid len) ∧
      lookupJ ((getObjBuf mem oid).take len) key = some v ∧
      q = mem.cells.length ∧ getCell mem2 q = some v ∧
      mem2.arrays = mem.arrays ∧ mem2.objects = mem.objects ∧
      ∀ r, r < mem.cells.length → getCell mem2 r = getCell mem r := by
  cases hr : getCell mem p with
  | none => simp [object_get, hr] at h
  | some w =>
    cases w with
    | object oid len =>
      cases hf : lookupJ ((getObjBuf mem oid).take len) key with
      | some v =>
        simp only [object_get, hr, hf, allocCell] at h
        rw [Prod.mk.injEq] at h
        obtain ⟨h1, h2⟩ := h
        injection h2 with h2
        refine ⟨oid, len, v, rfl, hf, h2.symm, ?_, ?_, ?_, ?_⟩
        · rw [← h1, ← h2]
          show (mem.cells ++ [v])[mem.cells.length]? = some v
          exact List.getElem?_concat_length _ _
        · rw [← h1]
        · rw [← h1]
        · intro r hrlt
          rw [← h1]
          show (mem.cells ++ [v])[r]? = mem.cells[r]?
          exact List.getElem?_append_left hrlt
      | none => simp [object_get, hr, hf] at h
    | integer i => simp [object_get, hr] at h
    | jbool b => simp [object_get, hr] at h
    | str s => simp [object_get, hr] at h
    | array aid alen => simp [object_get, hr] at h

/-! ### addFields leaves the stored fields entry denoting the empty list

The stored fields entry is a struct with length field 0; appends through the
fetched copy write past that length and bump only the copy's length, so the
stored entry still observably denotes the empty list. -/

theorem addFields_observe (mem : Mem) (jp oid len : Nat) (fields : List LogField)
    (hjp : getCell mem jp = some (.object oid len)) (hoid0 : oid < mem.objects.length)
    (hne : fields ≠ []) :
    observeFieldList (addFields mem jp fields) jp "fields" = some [] := by
  obtain ⟨cells, arrays, objects⟩ := mem
  have hjplt : jp < cells.length := getCell_lt hjp
  have hoid : oid < objects.length := hoid0
  have hbne : fields.isEmpty = false := by
    cases fields with
    | nil => exact absurd rfl hne
    | cons a b => rfl
  have hc1 : getCell (Mem.mk (cells ++ [JVal.array arrays.length 0]) (arrays ++ [[]]) objects) jp = some (JVal.object oid len) := by
    show (cells ++ [JVal.array arrays.length 0])[jp]? = some (JVal.object oid len)
    rw [List.getElem?_append_left hjplt]
    exact hjp
  have hc2 : getCell (Mem.mk (cells ++ [JVal.array arrays.length 0]) (arrays ++ [[]]) objects) cells.length = some (JVal.array arrays.length 0) := by
    show (cells ++ [JVal.array arrays.length 0])[cells.length]? = some (JVal.array arrays.length 0)
    exact List.getElem?_concat_length _ _
  have hset : object_set (Mem.mk (cells ++ [JVal.array arrays.length 0]) (arrays ++ [[]]) objects) jp "fields" cells.length = (Mem.mk ((cells ++ [JVal.array arrays.length 0]).set jp (JVal.object oid (entriesPut ((objects[oid]?).getD []) len "fields" (JVal.array arrays.length 0)).2)) (arrays ++ [[]]) (objects.set oid (entriesPut ((objects[oid]?).getD []) len "fields" (JVal.array arrays.length 0)).1)) := by
    rw [object_set, hc1, hc2]
    rfl
  have hlt2 : jp < (cells ++ [JVal.array arrays.length 0]).length := by
    simp
    omega
  have hc3 : getCell (Mem.mk ((cells ++ [JVal.array arrays.length 0]).set jp (JVal.object oid (entriesPut ((objects[oid]?).getD []) len "fields" (JVal.array arrays.length 0)).2)) (arrays ++ [[]]) (objects.set oid (entriesPut ((objects[oid]?).getD []) len "fields" (JVal.array arrays.length 0)).1)) jp = some (JVal.object oid (entriesPut ((objects[oid]?).getD []) len "fields" (JVal.array arrays.length 0)).2) := by
    show ((cells ++ [JVal.array arrays.length 0]).set jp (JVal.object oid (entriesPut ((objects[oid]?).getD []) len "fields" (JVal.array arrays.length 0)).2))[jp]? = some (JVal.object oid (entriesPut ((objects[oid]?).getD []) len "fields" (JVal.array arrays.length 0)).2)
    rw [List.getElem?_set]
    simp [hlt2]
    omega
  have hc4 : getObjBuf (Mem.mk ((cells ++ [JVal.array arrays.length 0]).set jp (JVal.object oid (entriesPut ((objects[oid]?).getD []) len "fields" (JVal.array arrays.length 0)).2)) (arrays ++ [[]]) (objects.set oid (entriesPut ((objects[oid]?).getD []) len "fields" (JVal.array arrays.length 0)).1)) oid = (entriesPut ((objects[oid]?).getD []) len "fields" (JVal.array arrays.length 0)).1 := by
    show ((objects.set oid (entriesPut ((objects[oid]?).getD []) len "fields" (JVal.array arrays.length 0)).1)[oid]?).getD [] = (entriesPut ((objects[oid]?).getD []) len "fields" (JVal.array arrays.length 0)).1
    rw [List.getElem?_set]
    simp [hoid]
  have hc5 : lookupJ ((entriesPut ((objects[oid]?).getD []) len "fields" (JVal.array arrays.length 0)).1.take (entriesPut ((objects[oid]?).getD []) len "fields" (JVal.array arrays.length 0)).2) "fields" = some (JVal.array arrays.length 0) :=
    entriesPut_lookup ((objects[oid]?).getD []) len "fields" (JVal.array arrays.length 0)
  have hget : object_get (Mem.mk ((cells ++ [JVal.array arrays.length 0]).set jp (JVal.object oid (entriesPut ((objects[oid]?).getD []) len "fields" (JVal.array arrays.length 0)).2)) (arrays ++ [[]]) (objects.set oid (entriesPut ((objects[oid]?).getD []) len "fields" (JVal.array arrays.length 0)).1)) jp "fields"
      = ((Mem.mk (((cells ++ [JVal.array arrays.length 0]).set jp (JVal.object oid (entriesPut ((objects[oid]?).getD []) len "fields" (JVal.array arrays.length 0)).2)) ++ [JVal.array arrays.length 0]) (arrays ++ [[]]) (objects.set oid (entriesPut ((objects[oid]?).getD []) len "fields" (JVal.array arrays.length 0)).1)), some ((cells ++ [JVal.array arrays.length 0]).set jp (JVal.object oid (entriesPut ((objects[oid]?).getD []) len "fields" (JVal.array arrays.length 0)).2)).length) := by
    simp only [object_get, hc3, hc4, hc5, allocCell]
  have haf : addFields (Mem.mk cells arrays objects) jp fields
      = insertFields ((cells ++ [JVal.array arrays.length 0]).set jp (JVal.object oid (entriesPut ((objects[oid]?).getD []) len "fields" (JVal.array arrays.length 0)).2)).length (Mem.mk (((cells ++ [JVal.array arrays.length 0]).set jp (JVal.object oid (entriesPut ((objects[oid]?).getD []) len "fields" (JVal.array arrays.length 0)).2)) ++ [JVal.array arrays.length 0]) (arrays ++ [[]]) (objects.set oid (entriesPut ((objects[oid]?).getD []) len "fields" (JVal.array arrays.length 0)).1)) fields := by
    rw [addFields, hbne]
    simp only [Bool.false_eq_true, if_false, new_list, allocCell]
    rw [hset, hget]
  rw [haf]
  have harrne : jp ≠ ((cells ++ [JVal.array arrays.length 0]).set jp (JVal.object oid (entriesPut ((objects[oid]?).getD []) len "fields" (JVal.array arrays.length 0)).2)).length := by
    simp
    omega
  have harlt : jp < (((cells ++ [JVal.array arrays.length 0]).set jp (JVal.object oid (entriesPut ((objects[oid]?).getD []) len "fields" (JVal.array arrays.length 0)).2)) ++ [JVal.array arrays.length 0]).length := by
    simp
    omega
  have hobs1 : getCell (insertFields ((cells ++ [JVal.array arrays.length 0]).set jp (JVal.object oid (entriesPut ((objects[oid]?).getD []) len "fields" (JVal.array arrays.length 0)).2)).length (Mem.mk (((cells ++ [JVal.array arrays.length 0]).set jp (JVal.object oid (entriesPut ((objects[oid]?).getD []) len "fields" (JVal.array arrays.length 0)).2)) ++ [JVal.array arrays.length 0]) (arrays ++ [[]]) (objects.set oid (entriesPut ((objects[oid]?).getD []) len "fields" (JVal.array arrays.length 0)).1)) fields) jp
      = some (JVal.object oid (entriesPut ((objects[oid]?).getD []) len "fields" (JVal.array arrays.length 0)).2) := by
    rw [insertFields_cells_frame fields (Mem.mk (((cells ++ [JVal.array arrays.length 0]).set jp (JVal.object oid (entriesPut ((objects[oid]?).getD []) len "fields" (JVal.array arrays.length 0)).2)) ++ [JVal.array arrays.length 0]) (arrays ++ [[]]) (objects.set oid (entriesPut ((objects[oid]?).getD []) len "fields" (JVal.array arrays.length 0)).1)) ((cells ++ [JVal.array arrays.length 0]).set jp (JVal.object oid (entriesPut ((objects[oid]?).getD []) len "fields" (JVal.array arrays.length 0)).2)).length jp harrne harlt]
    show (((cells ++ [JVal.array arrays.length 0]).set jp (JVal.object oid (entriesPut ((objects[oid]?).getD []) len "fields" (JVal.array arrays.length 0)).2)) ++ [JVal.array arrays.length 0])[jp]? = some (JVal.object oid (entriesPut ((objects[oid]?).getD []) len "fields" (JVal.array arrays.length 0)).2)
    rw [List.getElem?_append_left (by simp; omega)]
    exact hc3
  have hobs2 : getObjBuf (insertFields ((cells ++ [JVal.array arrays.length 0]).set jp (JVal.object oid (entriesPut ((objects[oid]?).getD []) len "fields" (JVal.array arrays.length 0)).2)).length (Mem.mk (((cells ++ [JVal.array arrays.length 0]).set jp (JVal.object oid (entriesPut ((objects[oid]?).getD []) len "fields" (JVal.array arrays.length 0)).2)) ++ [JVal.array arrays.length 0]) (arrays ++ [[]]) (objects.set oid (entriesPut ((objects[oid]?).getD []) len "fields" (JVal.array arrays.length 0)).1)) fields) oid = (entriesPut ((objects[oid]?).getD []) len "fields" (JVal.array arrays.length 0)).1 := by
    show (((insertFields ((cells ++ [JVal.array arrays.length 0]).set jp (JVal.object oid (entriesPut ((objects[oid]?).getD []) len "fields" (JVal.array arrays.length 0)).2)).length (Mem.mk (((cells ++ [JVal.array arrays.length 0]).set jp (JVal.object oid (entriesPut ((objects[oid]?).getD []) len "fields" (JVal.array arrays.length 0)).2)) ++ [JVal.array arrays.length 0]) (arrays ++ [[]]) (objects.set oid (entriesPut ((objects[oid]?).getD []) len "fields" (JVal.array arrays.length 0)).1)) fields).objects)[oid]?).getD [] = (entriesPut ((objects[oid]?).getD []) len "fields" (JVal.array arrays.length 0)).1
    rw [insertFields_objects]
    show ((objects.set oid (entriesPut ((objects[oid]?).getD []) len "fields" (JVal.array arrays.length 0)).1)[oid]?).getD [] = (entriesPut ((objects[oid]?).getD []) len "fields" (JVal.array arrays.length 0)).1
    rw [List.getElem?_set]
    simp [hoid]
  simp only [observeFieldList, hobs1, hobs2, hc5, List.take_zero]


/-! ### Claims -/

/-- Claim C1: createHardlink interprets its target relative to the staging
root; it fails with hardlinkTargetNotFound exactly when the target does not
resolve to an already-staged regular file, the error message contains the
root-relative textual form of both the target and the link path, and in the
Scenario B staging the root-relative target "hello" fails even though
foo-1.1/hello exists next to the link. -/
theorem c1_hardlink_target_resolution :
    (∀ (st : Stage) (p t : List String),
      createHardlink st p t = .error (.hardlinkTargetNotFound p t) ↔
        ¬ ∃ c e, resolveStage st t = some (.regular c e)) ∧
    (∀ p t : List String,
      containsSub (sinkErrorMessage (.hardlinkTargetNotFound p t)) (renderPath t) ∧
      containsSub (sinkErrorMessage (.hardlinkTargetNotFound p t)) (renderPath p)) ∧
    createHardlink scenarioBStage ["foo-1.1", "link"] ["hello"]
      = .error (.hardlinkTargetNotFound ["foo-1.1", "link"] ["hello"]) := by
  refine ⟨?_, ?_, rfl⟩
  · intro st p t
    cases hr : resolveStage st t with
    | none =>
      constructor
      · intro _
        rintro ⟨c, e, hc⟩
        exact absurd hc (by simp)
      · intro _
        simp [createHardlink, hr]
    | some w =>
      cases w with
      | regular c e =>
        constructor
        · intro hcc
          exfalso
          simp only [createHardlink, hr] at hcc
          cases hi : insertAt st p (.leaf (.regular c e)) with
          | some s2 => simp [createRegularFile, hi] at hcc
          | none => simp [createRegularFile, hi] at hcc
        · intro hno
          exact absurd ⟨c, e, rfl⟩ hno
      | directory sub =>
        constructor
        · intro _
          rintro ⟨c, e, hc⟩
          exact absurd hc (by simp)
        · intro _
          simp [createHardlink, hr]
      | symlink t2 =>
        constructor
        · intro _
          rintro ⟨c, e, hc⟩
          exact absurd hc (by simp)
        · intro _
          simp [createHardlink, hr]
  · intro p t
    constructor
    · refine ⟨"cannot find hard link target ", " for path " ++ renderPath p, ?_⟩
      simp [sinkErrorMessage, String.append_assoc]
    · refine ⟨"cannot find hard link target " ++ renderPath t ++ " for path ", "", ?_⟩
      simp [sinkErrorMessage, String.append_assoc, String.append_empty]

theorem c1_witness :
    createHardlink scenarioBStage ["foo-1.1", "link"] ["hello"]
      = .error (.hardlinkTargetNotFound ["foo-1.1", "link"] ["hello"]) ∧
    createHardlink [] ["a"] ["b"]
      = .error (.hardlinkTargetNotFound ["a"] ["b"]) ∧
    containsSub
      (sinkErrorMessage (.hardlinkTargetNotFound ["foo-1.1", "link"] ["hello"]))
      (renderPath ["hello"]) :=
  ⟨c1_hardlink_target_resolution.2.2,
   (c1_hardlink_target_resolution.1 [] ["a"] ["b"]).mpr
     (by rintro ⟨c, e, hc⟩; exact absurd hc (by simp [resolveStage, lookupChild])),
   (c1_hardlink_target_resolution.2.1 ["foo-1.1", "link"] ["hello"]).1⟩

/-- Claim C2: staging operations followed by flush and accessor construction
reproduce the written content, executable flags, symlink targets and child
sets; concretely, Scenario A followed by flush and
dereferenceSingletonDirectory yields an accessor whose root lists 5 entries
and whose reads return the staged values. -/
theorem c2_round_trip :
    (∀ (st : Stage) (p : List String) (c : String) (e : Bool), wfChildren st = true →
      resolveStage st p = some (.regular c e) →
      readFile (flushStage st) p = .ok c ∧
      resolveObj (.directory, flushStage st) p = .ok (modeOf (.regular c e), .blob c)) ∧
    (∀ (st : Stage) (p : List String) (t : String), wfChildren st = true →
      resolveStage st p = some (.symlink t) →
      readLink (flushStage st) p = .ok t) ∧
    (∀ (st : Stage) (p : List String) (cs : Stage), wfChildren st = true →
      resolveStage st p = some (.directory cs) →
      ∃ l, readDirectory (flushStage st) p = .ok l ∧
        l.Perm (cs.map (fun c => (c.1, modeOf c.2)))) ∧
    (scenarioARoot.map (fun r => (readDirectory r []).map List.length) = some (.ok 5) ∧
      scenarioARoot.map (fun r => readFile r ["hello"]) = some (.ok "hello world") ∧
      scenarioARoot.map (fun r => readFile r ["bye"]) = some (.ok "thanks for all the fish") ∧
      scenarioARoot.map (fun r => readLink r ["bye-link"]) = some (.ok "bye") ∧
      scenarioARoot.map (fun r => readDirectory r ["empty"]) = some (.ok []) ∧
      scenarioARoot.map (fun r => readFile r ["links", "foo"]) = some (.ok "hello world")) := by
  refine ⟨?_, ?_, ?_, rfl, rfl, rfl, rfl, rfl, rfl⟩
  · intro st p c e hwf h
    exact ⟨readFile_flush st p c e hwf h, resolve_flush p st hwf _ h⟩
  · intro st p t hwf h
    exact readLink_flush st p t hwf h
  · intro st p cs hwf h
    exact readDirectory_flush st p cs hwf h

theorem c2_witness :
    wfChildren [("a", FSNode.regular "hi" false)] = true ∧
    resolveStage [("a", FSNode.regular "hi" false)] ["a"]
      = some (.regular "hi" false) ∧
    readFile (flushStage [("a", FSNode.regular "hi" false)]) ["a"] = .ok "hi" :=
  ⟨rfl, rfl, (c2_round_trip.1 [("a", FSNode.regular "hi" false)] ["a"] "hi" false rfl rfl).1⟩

/-- Claim C3: after a successful createHardlink the link path holds a regular
file with the same content and executable flag as the target, both paths
still resolve after the insertion, both flush to the same blob (the same
content id), and the accessor reads identical bytes at link and target. -/
theorem c3_hardlink_sharing :
    ∀ (st : Stage) (p t : List String) (st2 : Stage), wfChildren st = true →
      createHardlink st p t = .ok st2 →
      ∃ c e, resolveStage st t = some (.regular c e) ∧
        resolveStage st2 p = some (.regular c e) ∧
        resolveStage st2 t = some (.regular c e) ∧
        flushNode (.regular c e) = .blob c ∧
        readFile (flushStage st2) p = .ok c ∧
        readFile (flushStage st2) t = .ok c := by
  intro st p t st2 hwf h
  cases hr : resolveStage st t with
  | none => simp [createHardlink, hr] at h
  | some w =>
    cases w with
    | directory sub => simp [createHardlink, hr] at h
    | symlink t2 => simp [createHardlink, hr] at h
    | regular c e =>
      simp only [createHardlink, hr] at h
      cases hi : insertAt st p (.leaf (.regular c e)) with
      | none => simp [createRegularFile, hi] at h
      | some s2 =>
        simp only [createRegularFile, hi] at h
        injection h with h
        rw [h] at hi
        have hwf2 : wfChildren st2 = true :=
          insertAt_wf p st st2 (.leaf (.regular c e)) hwf rfl hi
        have hp : resolveStage st2 p = some (.regular c e) :=
          insertAt_resolve_leaf p st st2 (.regular c e) hi
        have ht : resolveStage st2 t = some (.regular c e) :=
          insertAt_frame p st st2 (.leaf (.regular c e)) hi t c e hr
        exact ⟨c, e, rfl, hp, ht, rfl,
          readFile_flush st2 p c e hwf2 hp,
          readFile_flush st2 t c e hwf2 ht⟩

theorem c3_witness :
    wfChildren scenarioBStage = true ∧
    createHardlink scenarioBStage ["link"] ["foo-1.1", "hello"]
      = .ok ([("foo-1.1", FSNode.directory [("hello", FSNode.regular "hello world" false)]),
              ("link", FSNode.regular "hello world" false)]) ∧
    (∃ c e, resolveStage scenarioBStage ["foo-1.1", "hello"] = some (.regular c e) ∧
      resolveStage [("foo-1.1", FSNode.directory [("hello", FSNode.regular "hello world" false)]),
          ("link", FSNode.regular "hello world" false)] ["link"] = some (.regular c e) ∧
      resolveStage [("foo-1.1", FSNode.directory [("hello", FSNode.regular "hello world" false)]),
          ("link", FSNode.regular "hello world" false)] ["foo-1.1", "hello"]
        = some (.regular c e) ∧
      flushNode (.regular c e) = .blob c ∧
      readFile (flushStage [("foo-1.1", FSNode.directory [("hello", FSNode.regular "hello world" false)]),
          ("link", FSNode.regular "hello world" false)]) ["link"] = .ok c ∧
      readFile (flushStage [("foo-1.1", FSNode.directory [("hello", FSNode.regular "hello world" false)]),
          ("link", FSNode.regular "hello world" false)]) ["foo-1.1", "hello"] = .ok c) :=
  ⟨rfl, rfl,
   c3_hardlink_sharing scenarioBStage ["link"] ["foo-1.1", "hello"] _ rfl rfl⟩

/-- Claim C4: flush is a deterministic function of the staged logical content:
stages with the same canonical form (same names, contents and modes at every
level, insertion order ignored) flush to the same root tree id, and every
flushed tree lists its entries sorted by the total order over names. -/
theorem c4_flush_deterministic :
    (∀ st1 st2 : Stage, wfChildren st1 = true → wfChildren st2 = true →
      canonicalStage st1 = canonicalStage st2 → flushStage st1 = flushStage st2) ∧
    (∀ st : Stage, ∃ es, flushStage st = .tree es ∧ es.Pairwise (keyLe entryName)) := by
  constructor
  · intro st1 st2 h1 h2 hc
    rw [← flushStage_canonical st1 h1, ← flushStage_canonical st2 h2, hc]
  · intro st
    exact ⟨_, rfl, sortBy_pairwise entryName (flushChildren st)⟩

theorem c4_witness :
    wfChildren [("a", FSNode.regular "x" false), ("b", FSNode.symlink "y")] = true ∧
    wfChildren [("b", FSNode.symlink "y"), ("a", FSNode.regular "x" false)] = true ∧
    canonicalStage [("a", FSNode.regular "x" false), ("b", FSNode.symlink "y")]
      = canonicalStage [("b", FSNode.symlink "y"), ("a", FSNode.regular "x" false)] ∧
    flushStage [("a", FSNode.regular "x" false), ("b", FSNode.symlink "y")]
      = flushStage [("b", FSNode.symlink "y"), ("a", FSNode.regular "x" false)] :=
  ⟨rfl, rfl, rfl,
   c4_flush_deterministic.1 _ _ rfl rfl rfl⟩

/-- Claim C5: dereferenceSingletonDirectory returns the single entry's id when
the root tree has exactly one entry and it is a directory; in every other
case it returns the root unchanged, and the result is a deterministic
function of the input id. -/
theorem c5_dereference_singleton :
    ∀ root : GitObject,
      (∀ (n : String) (sub : GitObject), root = .tree [(n, .directory, sub)] →
        dereferenceSingletonDirectory root = sub) ∧
      ((∀ (n : String) (sub : GitObject), root ≠ .tree [(n, .directory, sub)]) →
        dereferenceSingletonDirectory root = root) ∧
      (∀ root2 : GitObject, root = root2 →
        dereferenceSingletonDirectory root = dereferenceSingletonDirectory root2) := by
  intro root
  refine ⟨?_, ?_, fun root2 h => by rw [h]⟩
  · intro n sub h
    rw [h]
    rfl
  · intro hall
    cases root with
    | blob c => rfl
    | tree es =>
      cases es with
      | nil => rfl
      | cons x rest =>
        cases rest with
        | cons y rest2 =>
          rcases x with ⟨n0, m0, sub0⟩
          cases m0 <;> rfl
        | nil =>
          rcases x with ⟨n0, m0, sub0⟩
          cases m0 with
          | directory => exact absurd rfl (hall n0 sub0)
          | regular => rfl
          | executableRegular => rfl
          | symlink => rfl

theorem c5_witness :
    dereferenceSingletonDirectory (.tree [("foo-1.1", .directory, .tree [])]) = .tree [] :=
  (c5_dereference_singleton (.tree [("foo-1.1", .directory, .tree [])])).1 "foo-1.1"
    (.tree []) rfl

/-- Claim C6: createDirectory auto-creates every missing ancestor as a
directory and fails with pathConflict exactly when a non-directory occupies
the path or one of its ancestors; createRegularFile and createSymlink follow
the same ancestor auto-creation and conflict rule. -/
theorem c6_create_conflicts :
    (∀ (st : Stage) (p : List String),
      createDirectory st p = .error (.pathConflict p) ↔
        ∃ q, ancestorOf q p ∧ isLeafAt st q = true) ∧
    (∀ (st : Stage) (p : List String) (st2 : Stage),
      createDirectory st p = .ok st2 →
      ∀ q, ancestorOf q p → ∃ ds, resolveStage st2 q = some (.directory ds)) ∧
    (∀ (st : Stage) (p : List String) (c : String) (e : Bool),
      (∃ q, ancestorOf q p ∧ q ≠ p ∧ isLeafAt st q = true) →
      createRegularFile st p c e = .error (.pathConflict p)) ∧
    (∀ (st : Stage) (p : List String) (t : String),
      (∃ q, ancestorOf q p ∧ q ≠ p ∧ isLeafAt st q = true) →
      createSymlink st p t = .error (.pathConflict p)) ∧
    (∀ (st : Stage) (p : List String) (c : String) (e : Bool) (st2 : Stage),
      createRegularFile st p c e = .ok st2 →
      ∀ q, ancestorOf q p → q ≠ p → ∃ ds, resolveStage st2 q = some (.directory ds)) ∧
    (∀ (st : Stage) (p : List String) (t : String) (st2 : Stage),
      createSymlink st p t = .ok st2 →
      ∀ q, ancestorOf q p → q ≠ p → ∃ ds, resolveStage st2 q = some (.directory ds)) := by
  refine ⟨?_, ?_, ?_, ?_, ?_, ?_⟩
  · intro st p
    cases p with
    | nil =>
      constructor
      · intro h
        simp [createDirectory] at h
      · rintro ⟨q, ⟨r, hqr⟩, hleaf⟩
        have hq : q = [] := (List.append_eq_nil.mp hqr).1
        rw [hq] at hleaf
        simp [isLeafAt, resolveStage] at hleaf
    | cons a p2 =>
      constructor
      · intro h
        cases hi : insertAt st (a :: p2) .dir with
        | some s2 => simp [createDirectory, hi] at h
        | none => exact insertAt_dir_leaf_of_none (a :: p2) st (by simp) hi
      · intro hex
        have hn := insertAt_dir_none_of_leaf (a :: p2) st hex
        simp [createDirectory, hn]
  · intro st p st2 h q hq
    cases p with
    | nil =>
      simp only [createDirectory, List.isEmpty_nil, if_pos] at h
      injection h with h
      rcases hq with ⟨r, hr⟩
      have hqnil : q = [] := (List.append_eq_nil.mp hr).1
      rw [hqnil]
      exact ⟨st2, rfl⟩
    | cons a p2 =>
      cases hi : insertAt st (a :: p2) .dir with
      | none => simp [createDirectory, hi] at h
      | some s2 =>
        have hs : s2 = st2 := by simpa [createDirectory, hi] using h
        rw [hs] at hi
        by_cases hqp : q = a :: p2
        · rw [hqp]
          exact insertAt_resolve_dir (a :: p2) st st2 hi
        · exact insertAt_ancestors (a :: p2) st st2 .dir hi q hq hqp
  · intro st p c e hex
    have hn := insertAt_leaf_none_of_leaf p st (.regular c e) hex
    simp [createRegularFile, hn]
  · intro st p t hex
    have hn := insertAt_leaf_none_of_leaf p st (.symlink t) hex
    simp [createSymlink, hn]
  · intro st p c e st2 h q hq hqp
    cases hi : insertAt st p (.leaf (.regular c e)) with
    | none => simp [createRegularFile, hi] at h
    | some s2 =>
      have hs : s2 = st2 := by simpa [createRegularFile, hi] using h
      rw [hs] at hi
      exact insertAt_ancestors p st st2 _ hi q hq hqp
  · intro st p t st2 h q hq hqp
    cases hi : insertAt st p (.leaf (.symlink t)) with
    | none => simp [createSymlink, hi] at h
    | some s2 =>
      have hs : s2 = st2 := by simpa [createSymlink, hi] using h
      rw [hs] at hi
      exact insertAt_ancestors p st st2 _ hi q hq hqp

theorem c6_witness :
    createDirectory [("f", FSNode.regular "x" false)] ["f", "g"]
      = .error (.pathConflict ["f", "g"]) ∧
    createRegularFile [("f", FSNode.regular "x" false)] ["f", "g"] "y" false
      = .error (.pathConflict ["f", "g"]) :=
  ⟨(c6_create_conflicts.1 [("f", FSNode.regular "x" false)] ["f", "g"]).mpr
     ⟨["f"], ⟨["g"], rfl⟩, rfl⟩,
   c6_create_conflicts.2.2.1 [("f", FSNode.regular "x" false)] ["f", "g"] "y" false
     ⟨["f"], ⟨["g"], rfl⟩, by simp, rfl⟩⟩

/-- Claim C7: accessor queries resolve paths by walking tree entries from the
bound root; a path that does not resolve yields notFound in every query, an
intermediate non-directory component yields notADirectory regardless of the
final component, and a final non-directory makes readDirectory fail with
notADirectory. -/
theorem c7_accessor_resolution :
    (∀ (root : GitObject) (p : List String),
      resolveObj (.directory, root) p = .error .notFound →
      readFile root p = .error .notFound ∧ readLink root p = .error .notFound ∧
        readDirectory root p = .error .notFound) ∧
    (∀ (root : GitObject) (pre suf : List String) (m : Mode) (o : GitObject),
      suf ≠ [] → resolveObj (.directory, root) pre = .ok (m, o) → m ≠ .directory →
      readFile root (pre ++ suf) = .error .notADirectory ∧
      readLink root (pre ++ suf) = .error .notADirectory ∧
      readDirectory root (pre ++ suf) = .error .notADirectory) ∧
    (∀ (root : GitObject) (p : List String) (m : Mode) (o : GitObject),
      resolveObj (.directory, root) p = .ok (m, o) → m ≠ .directory →
      readDirectory root p = .error .notADirectory) := by
  refine ⟨?_, ?_, ?_⟩
  · intro root p h
    exact ⟨by simp [readFile, h], by simp [readLink, h], by simp [readDirectory, h]⟩
  · intro root pre suf m o hsuf hres hm
    have hcomp : resolveObj (.directory, root) (pre ++ suf) = .error .notADirectory := by
      rw [resolveObj_append, hres]
      cases suf with
      | nil => exact absurd rfl hsuf
      | cons s suf2 =>
        simp [Except.bind, resolveObj_cons_notdir m o hm]
    exact ⟨by simp [readFile, hcomp], by simp [readLink, hcomp],
      by simp [readDirectory, hcomp]⟩
  · intro root p m o h hm
    cases m with
    | directory => exact absurd rfl hm
    | regular => cases o <;> simp [readDirectory, h]
    | executableRegular => cases o <;> simp [readDirectory, h]
    | symlink => cases o <;> simp [readDirectory, h]

theorem c7_witness :
    resolveObj (.directory, GitObject.tree [("f", .regular, .blob "x")]) ["f"]
      = .ok (.regular, .blob "x") ∧
    readFile (GitObject.tree [("f", .regular, .blob "x")]) ["f", "g"]
      = .error .notADirectory ∧
    readDirectory (GitObject.tree [("f", .regular, .blob "x")]) ["f", "g"]
      = .error .notADirectory :=
  ⟨rfl,
   (c7_accessor_resolution.2.1 (GitObject.tree [("f", .regular, .blob "x")])
     ["f"] ["g"] .regular (.blob "x") (by simp) rfl (by decide)).1,
   (c7_accessor_resolution.2.1 (GitObject.tree [("f", .regular, .blob "x")])
     ["f"] ["g"] .regular (.blob "x") (by simp) rfl (by decide)).2.2⟩

/-- Claim C8: createDirectory is idempotent on existing directories: when a
directory node is already present at the path, the call is a no-op returning
the staged structure unchanged. -/
theorem c8_mkdir_idempotent :
    ∀ (st : Stage) (p : List String) (cs : Stage),
      resolveStage st p = some (.directory cs) → createDirectory st p = .ok st := by
  intro st p cs h
  cases p with
  | nil => rfl
  | cons a p2 =>
    have hi := insertAt_dir_noop (a :: p2) st cs h (by simp)
    simp [createDirectory, hi]

theorem c8_witness :
    resolveStage [("d", FSNode.directory [])] ["d"] = some (.directory []) ∧
    createDirectory [("d", FSNode.directory [])] ["d"] = .ok [("d", FSNode.directory [])] :=
  ⟨rfl, c8_mkdir_idempotent [("d", FSNode.directory [])] ["d"] [] rfl⟩

/-- Claim C9: object_set_strings puts every string of the array under the same
key, so a non-empty list of strings leaves exactly one string (the last)
stored under the key and every other key untouched; and the C++ wrapper
set_strings passes n+1 as the size, making object_set_strings read the
terminating null pointer as a string, so the wrapped call never completes
normally. -/
theorem c9_set_strings :
    (∀ (m : List (String × JsonVal)) (key : String) (ss : List String) (slast : String),
      ∃ m2, object_set_strings m key ((ss ++ [slast]).map some) = some m2 ∧
        lookupField m2 key = some (.str slast) ∧
        ∀ k, k ≠ key → lookupField m2 k = lookupField m k) ∧
    (∀ (m : List (String × JsonVal)) (key : String) (ss : List String),
      set_strings m key ss = none) :=
  ⟨fun m key ss slast => object_set_strings_spec key ss slast m,
   fun m key ss => object_set_strings_null key ss m⟩

theorem c9_witness :
    (∃ m2, object_set_strings [] "k" ((["a"] ++ ["b"]).map some) = some m2 ∧
      lookupField m2 "k" = some (.str "b") ∧
      ∀ k2, k2 ≠ "k" → lookupField m2 k2 = lookupField [] k2) ∧
    set_strings [] "k" ["a", "b"] = none :=
  ⟨c9_set_strings.1 [] "k" ["a"] "b", c9_set_strings.2 [] "k" ["a", "b"]⟩

/-- Claim C10 counterexample: the claim asserts that every subsequent
mutation through the pointer returned by nix_libutil_json_object_get leaves
the value inside the object unchanged.  This is false of the code: the
returned cell holds a shallow struct copy sharing backing storage with the
stored value, so in aliasMem (an object binding k to a nested object that
binds x to "old"), fetching k (which returns fresh pointer 1) and then
writing key x through that pointer overwrites the shared entries buffer in
place, and the value stored inside the object observably changes from "old"
to "new". -/
theorem c10_counterexample :
    observeNestedString aliasMem 0 "k" "x" = some "old" ∧
    (object_get aliasMem 0 "k").2 = some 1 ∧
    observeNestedString
      (object_set_string (object_get aliasMem 0 "k").1 1 "x" "new") 0 "k" "x"
      = some "new" :=
  ⟨rfl, rfl, rfl⟩

/-- Claim C10 (amended): nix_libutil_json_object_get returns a pointer to a
freshly allocated shallow copy of the stored value struct — a fresh cell
above the old heap, with every other cell and both backing stores untouched;
a list append through a pointer writes no other cell's struct; and because
appends through the fetched copy write past the stored entry's length field
and bump only the copy's length, after JSONLogger::addFields appends field
entries to the list obtained via object_get, the fields entry stored in the
JSON object still observably denotes the empty list. -/
theorem c10_object_get_shallow_copy :
    (∀ (mem : Mem) (p : Nat) (key : String) (mem2 : Mem) (q : Nat),
      object_get mem p key = (mem2, some q) →
      ∃ oid len v, getCell mem p = some (.object oid len) ∧
        lookupJ ((getObjBuf mem oid).take len) key = some v ∧
        q = mem.cells.length ∧ getCell mem2 q = some v ∧
        mem2.arrays = mem.arrays ∧ mem2.objects = mem.objects ∧
        ∀ r, r < mem.cells.length → getCell mem2 r = getCell mem r) ∧
    (∀ (mem : Mem) (p vp r : Nat), r ≠ p →
      getCell (list_insert mem p vp) r = getCell mem r) ∧
    (∀ (mem : Mem) (jp oid len : Nat) (fields : List LogField),
      getCell mem jp = some (.object oid len) → oid < mem.objects.length →
      fields ≠ [] →
      observeFieldList (addFields mem jp fields) jp "fields" = some []) :=
  ⟨fun mem p key mem2 q h => object_get_spec mem p key mem2 q h,
   fun mem p vp r hne => list_insert_cells_frame mem p vp r hne,
   fun mem jp oid len fields hjp hoid hne =>
     addFields_observe mem jp oid len fields hjp hoid hne⟩

theorem c10_witness :
    getCell (Mem.mk [JVal.object 0 0] [] [[]]) 0 = some (JVal.object 0 0) ∧
    observeFieldList
      (addFields (Mem.mk [JVal.object 0 0] [] [[]]) 0 [LogField.fInt 1]) 0 "fields"
      = some [] :=
  ⟨rfl, c10_object_get_shallow_copy.2.2 (Mem.mk [JVal.object 0 0] [] [[]]) 0 0 0
    [LogField.fInt 1] rfl (by simp) (by simp)⟩


end Zix
